import Mathlib

/-!
# Verification of the Minesweeper CSP / probabilistic agents

A shallow embedding of the constraint-inference engine of the Minesweeper
agent repository (`csp_agent.py`, `hybrid_agent.py`, `mcmc_agent.py`),
together with proofs of the specification claims about it.

Conventions of the embedding:
* a grid cell is a pair of integers `(row, col)`;
* Python `set`s of cells become `Finset Cell`; Python lists stay `List`;
* Python `int` becomes `ℤ` (counts may go negative in the source);
* float probabilities become `ℚ` (every probability the code computes is a
  ratio of two integer tallies);
* the sources of randomness (`random.choice`, `random.shuffle`,
  `random.random`) are passed in as explicit function parameters;
* iteration order over a Python `set` is unspecified, so the embedding
  enumerates finite sets in a fixed lexicographic order (`sortCells`);
  every statement proved is independent of that choice;
* the unbounded `while changes:` loop of `infer_knowledge` is embedded with
  explicit fuel (`inferFuel`); the termination claim is stated as the
  existence of a fixpoint of the single-pass function `inferStep`.
-/

/-- A grid cell, identified by its (row, column) coordinates. -/
abbrev Cell : Type := ℤ × ℤ

/-- Lexicographic order on cells, used to enumerate a finite set of cells in
a deterministic order (the Python source iterates over `set`s in an
unspecified order). -/
def cellLE : Cell → Cell → Prop := fun a b => a.1 < b.1 ∨ (a.1 = b.1 ∧ a.2 ≤ b.2)

instance : DecidableRel cellLE := fun a b =>
  inferInstanceAs (Decidable (a.1 < b.1 ∨ (a.1 = b.1 ∧ a.2 ≤ b.2)))

instance : IsTrans Cell cellLE := by
  constructor
  intro a b c hab hbc
  rcases hab with h | ⟨h1, h2⟩ <;> rcases hbc with h' | ⟨h1', h2'⟩ <;>
    unfold cellLE <;> [left; left; left; right] <;> omega

instance : IsAntisymm Cell cellLE := by
  constructor
  intro a b hab hba
  rcases hab with h | ⟨h1, h2⟩ <;> rcases hba with h' | ⟨h1', h2'⟩ <;>
    [omega; omega; omega; exact Prod.ext h1 (le_antisymm h2 h2')]

instance : IsTotal Cell cellLE := by
  constructor
  intro a b
  unfold cellLE
  omega

/-- Enumerate a finite set of cells as a lexicographically sorted list.
(Implemented with insertion sort so that it evaluates by kernel
reduction.) -/
def sortCells (F : Finset Cell) : List Cell :=
  Quot.liftOn F.val (fun l => l.insertionSort cellLE) fun a b h =>
    List.eq_of_perm_of_sorted
      ((List.perm_insertionSort cellLE a).trans
        (h.trans (List.perm_insertionSort cellLE b).symm))
      (List.sorted_insertionSort cellLE a) (List.sorted_insertionSort cellLE b)

/-!
## `Sentence` (csp_agent.py, class `Sentence`)

A logical statement about a set of cells: exactly `count` of `cells` are
mines.  Python `__eq__`/`__hash__` compare by (cell set, count), which is
exactly structure equality here.
-/

/-- `Sentence`: a set of cells together with the number of mines among them.
Mirrors `Sentence.__init__` in `csp_agent.py`. -/
structure Sentence where
  cells : Finset Cell
  count : ℤ
deriving DecidableEq

namespace Sentence

/-- `Sentence.known_mines`: all cells are mines when `len(cells) == count > 0`. -/
def known_mines (s : Sentence) : Finset Cell :=
  if (s.cells.card : ℤ) = s.count ∧ 0 < s.count then s.cells else ∅

/-- `Sentence.known_safes`: all cells are safe when `count == 0`. -/
def known_safes (s : Sentence) : Finset Cell :=
  if s.count = 0 then s.cells else ∅

/-- `Sentence.mark_mine`: remove a known mine from the sentence and decrement
the count (no-op when the cell is not in the sentence). -/
def mark_mine (s : Sentence) (cell : Cell) : Sentence :=
  if cell ∈ s.cells then ⟨s.cells.erase cell, s.count - 1⟩ else s

/-- `Sentence.mark_safe`: remove a known safe cell, count unchanged. -/
def mark_safe (s : Sentence) (cell : Cell) : Sentence :=
  if cell ∈ s.cells then ⟨s.cells.erase cell, s.count⟩ else s

/-- Remove a set of fresh known-safe cells from a sentence: the aggregate
effect of calling `mark_safe` once for each cell of `X` (each cell is
processed at most once, so the per-cell loop of the source and this
one-shot difference agree). -/
def removeSafe (s : Sentence) (X : Finset Cell) : Sentence :=
  ⟨s.cells \ X, s.count⟩

/-- Remove a set of fresh known-mine cells from a sentence, decrementing the
count once for each removed cell that was actually present: the aggregate
effect of calling `mark_mine` once for each cell of `X`. -/
def removeMine (s : Sentence) (X : Finset Cell) : Sentence :=
  ⟨s.cells \ X, s.count - ((s.cells ∩ X).card : ℤ)⟩

end Sentence

/-!
## Knowledge base (csp_agent.py, class `CSPAgent`)
-/

/-- The knowledge-base state of `CSPAgent`: moves made, known mines, known
safe cells, and the list of live sentences. -/
structure KB where
  movesMade : Finset Cell
  mines : Finset Cell
  safes : Finset Cell
  knowledge : List Sentence
deriving DecidableEq

/-- `CSPAgent.mark_mine`: record a new known mine and propagate it into every
sentence; a no-op when the cell is already recorded. -/
def kbMarkMine (s : KB) (cell : Cell) : KB :=
  if cell ∈ s.mines then s
  else { s with
          mines := insert cell s.mines
          knowledge := s.knowledge.map (fun t => t.mark_mine cell) }

/-- `CSPAgent.mark_safe`: record a new known safe cell and propagate it into
every sentence; a no-op when the cell is already recorded. -/
def kbMarkSafe (s : KB) (cell : Cell) : KB :=
  if cell ∈ s.safes then s
  else { s with
          safes := insert cell s.safes
          knowledge := s.knowledge.map (fun t => t.mark_safe cell) }

/-- The set-level aggregate of `CSPAgent.mark_safe` over all cells of `X`
(the source loops over a Python set; each fresh cell is inserted into
`safes` and removed from every sentence, already-known cells are skipped). -/
def kbMarkSafeSet (s : KB) (X : Finset Cell) : KB :=
  { s with
      safes := s.safes ∪ X
      knowledge := s.knowledge.map (fun t => t.removeSafe (X \ s.safes)) }

/-- The set-level aggregate of `CSPAgent.mark_mine` over all cells of `X`. -/
def kbMarkMineSet (s : KB) (X : Finset Cell) : KB :=
  { s with
      mines := s.mines ∪ X
      knowledge := s.knowledge.map (fun t => t.removeMine (X \ s.mines)) }

/-!
## Ingest (`CSPAgent.add_knowledge`, steps 1–3)
-/

/-- The 3×3 window around a cell, in the row-major order of the source's
nested `range` loops, the cell itself excluded. -/
def neighborhood (cell : Cell) : List Cell :=
  ([cell.1 - 1, cell.1, cell.1 + 1].flatMap fun r =>
    [cell.2 - 1, cell.2, cell.2 + 1].map fun c => ((r, c) : Cell)).filter
    (fun p => p ≠ cell)

/-- In-bounds neighbors of a cell on a `rows × cols` grid. -/
def inBoundsNeighbors (rows cols : ℕ) (cell : Cell) : List Cell :=
  (neighborhood cell).filter
    (fun p => 0 ≤ p.1 ∧ p.1 < (rows : ℤ) ∧ 0 ≤ p.2 ∧ p.2 < (cols : ℤ))

/-- Steps 1–3 of `CSPAgent.add_knowledge` (everything except the final call
to `infer_knowledge`): mark the revealed cell safe, record the move,
collect the hidden (not known-mine, not known-safe) in-bounds neighbors and,
when there are any, append the sentence
`{hidden neighbors, count − known-mine neighbors}`. -/
def addKnowledgeCore (rows cols : ℕ) (s : KB) (cell : Cell) (count : ℤ) : KB :=
  let s1 := kbMarkSafe s cell
  let s1 := { s1 with movesMade := insert cell s1.movesMade }
  let nbrs := inBoundsNeighbors rows cols cell
  let cells := nbrs.filter (fun p => p ∉ s1.mines ∧ p ∉ s1.safes)
  let minesFound : ℤ := (nbrs.filter (fun p => p ∈ s1.mines)).length
  if cells = [] then s1
  else { s1 with knowledge := s1.knowledge ++ [⟨cells.toFinset, count - minesFound⟩] }

/-!
## Fixpoint deduction (`CSPAgent.infer_knowledge`)

One iteration of the `while changes:` body is `inferStep`; it returns the
new state together with the `changes` flag of that pass.
-/

/-- Step A of a pass: collect every cell some sentence proves safe. -/
def collectSafes (kn : List Sentence) : Finset Cell :=
  kn.foldl (fun acc t => acc ∪ t.known_safes) ∅

/-- Step A of a pass: collect every cell some sentence proves to be a mine. -/
def collectMines (kn : List Sentence) : Finset Cell :=
  kn.foldl (fun acc t => acc ∪ t.known_mines) ∅

/-- One iteration of the inner subset-resolution loop of `infer_knowledge`:
for the ordered pair `(s1, s2)` of value-distinct sentences with
`s1.cells ⊆ s2.cells`, derive `⟨s2.cells − s1.cells, s2.count − s1.count⟩`
when the difference is non-empty, skipping sentences already present in the
knowledge list `full` or already accumulated. -/
def deriveStep (full : List Sentence) (s1 : Sentence) (acc : List Sentence)
    (s2 : Sentence) : List Sentence :=
  if s1 = s2 then acc
  else if s1.cells ⊆ s2.cells then
    if s2.cells \ s1.cells ≠ ∅ then
      if (⟨s2.cells \ s1.cells, s2.count - s1.count⟩ : Sentence) ∉ full ∧
          (⟨s2.cells \ s1.cells, s2.count - s1.count⟩ : Sentence) ∉ acc then
        acc ++ [⟨s2.cells \ s1.cells, s2.count - s1.count⟩]
      else acc
    else acc
  else acc

/-- Step C of a pass (subset resolution): the double loop accumulating
`new_sentences` in `infer_knowledge`. -/
def subsetDerive (kn : List Sentence) : List Sentence :=
  kn.foldl (fun acc s1 => kn.foldl (deriveStep kn s1) acc) []

/-- One pass of the `while changes:` loop of `infer_knowledge`: apply all
facts sentences directly expose (step A), drop empty sentences (step B),
run subset resolution (step C).  The boolean is the `changes` flag of the
pass. -/
def inferStep (s : KB) : KB × Bool :=
  let toSafe := collectSafes s.knowledge
  let toMine := collectMines s.knowledge
  let changedA : Bool := ¬(toSafe = ∅ ∧ toMine = ∅)
  let s1 := kbMarkMineSet (kbMarkSafeSet s toSafe) toMine
  let s2 := { s1 with knowledge := s1.knowledge.filter (fun t => t.cells ≠ ∅) }
  let derived := subsetDerive s2.knowledge
  (⟨s2.movesMade, s2.mines, s2.safes, s2.knowledge ++ derived⟩,
    changedA || !derived.isEmpty)

/-- `infer_knowledge` with explicit fuel: run passes while the previous pass
reported a change, giving up when the fuel is exhausted.  (The source's
loop is unbounded; `infer_terminates` below shows that on sound states a
fixpoint is always reached.) -/
def inferFuel : ℕ → KB → KB
  | 0, s => s
  | n + 1, s =>
      let r := inferStep s
      if r.2 then inferFuel n r.1 else r.1

/-- `CSPAgent.add_knowledge`: ingest followed by fixpoint deduction. -/
def addKnowledge (rows cols : ℕ) (fuel : ℕ) (s : KB) (cell : Cell) (count : ℤ) : KB :=
  inferFuel fuel (addKnowledgeCore rows cols s cell count)

/-!
## Exact and approximate estimators (hybrid_agent.py, mcmc_agent.py)

Assignments over a component list are modelled as the association list
`comp.zip p` for a bit pattern `p` (mirroring the Python dict
`{comp[i]: pattern[i]}`); `itertools.product([0, 1], repeat=n)` becomes
`patterns n`.
-/

/-- All binary patterns of length `n` (the enumeration order differs from
`itertools.product`, which no counting result depends on). -/
def patterns : ℕ → List (List Bool)
  | 0 => [[]]
  | n + 1 => (patterns n).flatMap fun p => [false :: p, true :: p]

/-- The assignment dict `{comp[i]: pattern[i]}` as a partial map. -/
def asgOf (comp : List Cell) (p : List Bool) : Cell → Option Bool :=
  fun c => (comp.zip p).lookup c

/-- The sentences whose cells meet the component
(`not s.cells.isdisjoint(comp_set)` in both agents). -/
def relevantSentences (kn : List Sentence) (comp : List Cell) : List Sentence :=
  kn.filter (fun s => s.cells ∩ comp.toFinset ≠ ∅)

/-- `HybridAgent.check_consistent`: an assignment is consistent with a
sentence when the assigned mines do not exceed the count, and match it
exactly once no cell of the sentence is unassigned.  (The inline
consistency check of `MCMCAgent.solve_component_exact` computes exactly the
same condition.) -/
def checkConsistent (asg : Cell → Option Bool) (sentences : List Sentence) : Bool :=
  sentences.all fun s =>
    let mc := (s.cells.filter (fun c => asg c = some true)).card
    let unk := (s.cells.filter (fun c => asg c = none)).card
    (decide (unk = 0 → (mc : ℤ) = s.count)) && decide ((mc : ℤ) ≤ s.count)

/-- Number of valid worlds found by the exact enumeration of
`solve_component_exact`. -/
def validWorlds (kn : List Sentence) (comp : List Cell) : ℕ :=
  ((patterns comp.length).filter
    (fun p => checkConsistent (asgOf comp p) (relevantSentences kn comp))).length

/-- `mine_counts[cell]` after the exact enumeration: in how many valid worlds
the cell is a mine. -/
def mineTally (kn : List Sentence) (comp : List Cell) (cell : Cell) : ℕ :=
  ((patterns comp.length).filter
    (fun p => checkConsistent (asgOf comp p) (relevantSentences kn comp) &&
      (asgOf comp p cell == some true))).length

/-- The final loop shared by all three solvers: scan the component for the
cell of strictly smallest probability `tally / total`, starting from
`(None, 1.0)`. -/
def bestOf (comp : List Cell) (tally : Cell → ℕ) (total : ℕ) : Option Cell × ℚ :=
  comp.foldl
    (fun best c =>
      let prob : ℚ := (tally c : ℚ) / (total : ℚ)
      if prob < best.2 then (some c, prob) else best)
    (none, 1)

/-- `HybridAgent.solve_component_exact`: enumerate all `2^n` assignments over
the component; report `(None, 1.0)` when no world is valid, otherwise the
least-probability cell. -/
def solveComponentExact (kn : List Sentence) (comp : List Cell) : Option Cell × ℚ :=
  if validWorlds kn comp = 0 then (none, 1)
  else bestOf comp (mineTally kn comp) (validWorlds kn comp)

/-- `MCMCAgent.solve_component_exact`: the MCMC agent's private copy of the
exact solver; its inlined consistency check computes the same condition as
`check_consistent`, so the embedded counting functions coincide. -/
def mcmcSolveComponentExact (kn : List Sentence) (comp : List Cell) : Option Cell × ℚ :=
  if validWorlds kn comp = 0 then (none, 1)
  else bestOf comp (mineTally kn comp) (validWorlds kn comp)

/-- `HybridAgent.solve_component_monte_carlo`: 5000 uniformly random
assignments (sample `i` assigns `rng i c` to cell `c`), counting the
accepted ones. -/
def solveComponentMonteCarlo (kn : List Sentence) (comp : List Cell)
    (rng : ℕ → Cell → Bool) : Option Cell × ℚ :=
  let rel := relevantSentences kn comp
  let asgI : ℕ → Cell → Option Bool := fun i c =>
    if c ∈ comp then some (rng i c) else none
  let valid := (List.range 5000).filter (fun i => checkConsistent (asgI i) rel)
  if valid.length = 0 then (none, 1)
  else bestOf comp (fun c => (valid.filter (fun i => rng i c)).length) valid.length

/-- The annealing energy of `MCMCAgent.solve_component_mcmc`: the sum over
relevant sentences of `|assigned mines − count|`; the assignment dict's
keys are the component cells. -/
def annealEnergy (rel : List Sentence) (compSet : Finset Cell) (st : Cell → Bool) : ℕ :=
  (rel.map
    (fun s => (((s.cells.filter (fun c => c ∈ compSet ∧ st c)).card : ℤ) - s.count).natAbs)).sum

/-- `MCMCAgent.solve_component_mcmc`: 15000 simulated-annealing steps.  The
random flip targets and the float Metropolis acceptance draws
(`random.random() < exp(−ΔE/T)`) are injected as the streams `flip` and
`accept`; `init` is the random initial state.  A sample is collected after
every step whose resulting state has energy 0. -/
def solveComponentMcmc (kn : List Sentence) (comp : List Cell)
    (flip : ℕ → Cell) (accept : ℕ → Bool) (init : Cell → Bool) : Option Cell × ℚ :=
  let rel := relevantSentences kn comp
  let compSet := comp.toFinset
  let run :=
    (List.range 15000).foldl
      (fun (st : (Cell → Bool) × ℕ × ℕ × (Cell → ℕ)) i =>
        let state := st.1
        let curE := st.2.1
        let flipped := Function.update state (flip i) (!state (flip i))
        let newE := annealEnergy rel compSet flipped
        let acc : (Cell → Bool) × ℕ :=
          if newE ≤ curE then (flipped, newE)
          else if accept i then (flipped, newE) else (state, curE)
        let samples := if acc.2 = 0 then st.2.2.1 + 1 else st.2.2.1
        let tally : Cell → ℕ :=
          if acc.2 = 0 then (fun c => if acc.1 c then st.2.2.2 c + 1 else st.2.2.2 c)
          else st.2.2.2
        (acc.1, acc.2, samples, tally))
      (init, annealEnergy rel compSet init, 0, fun _ => 0)
  if run.2.2.1 = 0 then (none, 1)
  else bestOf comp run.2.2.2 run.2.2.1

/-!
## Frontier decomposition (`HybridAgent.get_components`; `MCMCAgent`
re-declares an identical copy)
-/

/-- The frontier: every cell referenced by a live sentence, enumerated in
canonical order (`fringe_list = list(fringe_cells)` in the source). -/
def fringeList (kn : List Sentence) : List Cell :=
  sortCells (kn.foldl (fun F t => F ∪ t.cells) ∅)

/-- The adjacency built by `get_components`: two fringe cells are neighbors
when some sentence contains both. -/
def nbrsL (kn : List Sentence) (fringe : List Cell) (c : Cell) : List Cell :=
  if c ∈ fringe then
    fringe.filter (fun d => decide (d ≠ c ∧ ∃ t ∈ kn, c ∈ t.cells ∧ d ∈ t.cells))
  else []

/-- Push every not-yet-visited cell of `ns` onto the pending list, marking it
visited — the `for n in neighbors[curr]: if n not in visited: …` loop. -/
def pushNew (ns : List Cell) (visited : Finset Cell) : List Cell × Finset Cell :=
  ns.foldl
    (fun acc n => if n ∈ acc.2 then acc else (acc.1 ++ [n], insert n acc.2))
    ([], visited)

/-- The DFS of `get_components`, with explicit fuel (structural recursion so
that it evaluates by kernel reduction); `getComponents` always supplies
enough fuel, see `dfsAux_stack_nil`. -/
def dfsAux (kn : List Sentence) (fringe : List Cell) :
    ℕ → List Cell → Finset Cell → Finset Cell → Finset Cell × Finset Cell
  | 0, _, visited, comp => (visited, comp)
  | _ + 1, [], visited, comp => (visited, comp)
  | fuel + 1, curr :: rest, visited, comp =>
      let pr := pushNew (nbrsL kn fringe curr) visited
      dfsAux kn fringe fuel (pr.1.reverse ++ rest) pr.2 (insert curr comp)

/-- The outer sweep of `get_components`: traverse the pending cells, starting
a DFS at every cell not yet visited, accumulating (components, visited). -/
def componentsFold (kn : List Sentence) (fringe todo : List Cell)
    (acc : List (Finset Cell) × Finset Cell) : List (Finset Cell) × Finset Cell :=
  todo.foldl
    (fun acc cell =>
      if cell ∈ acc.2 then acc
      else
        let r := dfsAux kn fringe (fringe.length + 1) [cell] (insert cell acc.2) ∅
        (acc.1 ++ [r.2], r.1))
    acc

/-- `HybridAgent.get_components`: split the fringe into connected components
of the shared-sentence adjacency. -/
def getComponents (kn : List Sentence) (fringe : List Cell) : List (Finset Cell) :=
  (componentsFold kn fringe fringe ([], ∅)).1

/-- The union of a list of components. -/
def unionComps (l : List (Finset Cell)) : Finset Cell := l.foldr (· ∪ ·) ∅

/-- `ClosedPrefix N comps pre`: scanning the component list in creation
order, every member's neighbors lie within the previously created
components (`pre`) or its own component — the invariant the DFS sweep of
`get_components` maintains. -/
def ClosedPrefix (N : Cell → List Cell) : List (Finset Cell) → Finset Cell → Prop
  | [], _ => True
  | c :: tl, pre => (∀ x ∈ c, ∀ d ∈ N x, d ∈ pre ∪ c) ∧ ClosedPrefix N tl (pre ∪ c)

/-!
## Decision policies (`get_action` of the three agents)

An action is a `(row, col, kind)` triple; the environment interprets
`kind = 0` as reveal and `kind = 1` as flag.  All sources of randomness are
injected: `safeSel` picks from the safe set (Python iterates a set),
`shuf` shuffles the corner list, `pickE`/`pickR` model `random.choice`, and
`rng`/`flip`/`accept`/`init` drive the approximate estimators.
-/

/-- An environment action `(row, col, kind)`; kind 0 = reveal, 1 = flag. -/
abbrev AgentAction : Type := ℤ × ℤ × ℕ

/-- All grid cells in the row-major order of the source's nested loops. -/
def gridCells (rows cols : ℕ) : List Cell :=
  (List.range rows).flatMap fun r =>
    (List.range cols).map fun c => (((r : ℤ), (c : ℤ)) : Cell)

/-- The observation-sync loop at the top of every `get_action`: ingest every
revealed cell (`obs[r, c] >= 0`) not yet recorded as a move. -/
def syncObs (rows cols fuel : ℕ) (s : KB) (obs : Cell → ℤ) : KB :=
  (gridCells rows cols).foldl
    (fun s c =>
      if 0 ≤ obs c ∧ c ∉ s.movesMade then addKnowledge rows cols fuel s c (obs c) else s)
    s

/-- `CSPAgent.get_action`: sync, then a known-safe move, then a uniformly
random guess among unrevealed non-mine cells. -/
def cspGetAction (rows cols fuel : ℕ) (safeSel : Finset Cell → Cell)
    (pickR : List Cell → Cell) (s : KB) (obs : Cell → ℤ) : KB × Option AgentAction :=
  let s := syncObs rows cols fuel s obs
  let cand := s.safes \ s.movesMade
  if cand ≠ ∅ then (s, some ((safeSel cand).1, (safeSel cand).2, 0))
  else
    let possible := (gridCells rows cols).filter (fun c => c ∉ s.movesMade ∧ c ∉ s.mines)
    if possible ≠ [] then (s, some ((pickR possible).1, (pickR possible).2, 0))
    else (s, none)

/-- `HybridAgent.get_smart_guess` (and the equivalent
`MCMCAgent.get_smart_guess`): a shuffled corner, else a random edge cell,
else a random unrevealed non-mine cell. -/
def getSmartGuess (rows cols : ℕ) (shuf : List Cell → List Cell)
    (pickE pickR : List Cell → Cell) (s : KB) : Option AgentAction :=
  let corners : List Cell :=
    [(0, 0), (0, (cols : ℤ) - 1), ((rows : ℤ) - 1, 0), ((rows : ℤ) - 1, (cols : ℤ) - 1)]
  match (shuf corners).filter (fun p => p ∉ s.movesMade ∧ p ∉ s.mines) with
  | c :: _ => some (c.1, c.2, 0)
  | [] =>
    let edges := (gridCells rows cols).filter
      (fun p => (p.1 = 0 ∨ p.1 = (rows : ℤ) - 1 ∨ p.2 = 0 ∨ p.2 = (cols : ℤ) - 1) ∧
        p ∉ s.movesMade ∧ p ∉ s.mines)
    if edges ≠ [] then some ((pickE edges).1, (pickE edges).2, 0)
    else
      let possible := (gridCells rows cols).filter (fun p => p ∉ s.movesMade ∧ p ∉ s.mines)
      if possible ≠ [] then some ((pickR possible).1, (pickR possible).2, 0)
      else none

/-- The per-component strategy split of `HybridAgent.get_action`: exact model
counting for components of at most 18 cells, Monte Carlo above. -/
def hybridScoreComponent (kn : List Sentence) (comp : Finset Cell)
    (rng : ℕ → Cell → Bool) : Option Cell × ℚ :=
  if comp.card ≤ 18 then solveComponentExact kn (sortCells comp)
  else solveComponentMonteCarlo kn (sortCells comp) rng

/-- The per-component strategy split of `MCMCAgent.get_action`: exact model
counting for components of at most 18 cells, simulated annealing above. -/
def mcmcScoreComponent (kn : List Sentence) (comp : Finset Cell)
    (flip : ℕ → Cell) (accept : ℕ → Bool) (init : Cell → Bool) : Option Cell × ℚ :=
  if comp.card ≤ 18 then mcmcSolveComponentExact kn (sortCells comp)
  else solveComponentMcmc kn (sortCells comp) flip accept init

/-- The best-move scan over components shared by the hybrid and MCMC agents:
keep a component's move when it exists and strictly lowers the best
probability so far. -/
def bestComponentMove (comps : List (Finset Cell))
    (score : Finset Cell → Option Cell × ℚ) : Option Cell × ℚ :=
  comps.foldl
    (fun best comp =>
      let r := score comp
      match r.1 with
      | some m => if r.2 < best.2 then (some m, r.2) else best
      | none => best)
    (none, 1)

/-- `HybridAgent.get_action`. -/
def hybridGetAction (rows cols fuel : ℕ) (safeSel : Finset Cell → Cell)
    (shuf : List Cell → List Cell) (pickE pickR : List Cell → Cell)
    (rng : ℕ → Cell → Bool) (s : KB) (obs : Cell → ℤ) : KB × Option AgentAction :=
  let s := syncObs rows cols fuel s obs
  let cand := s.safes \ s.movesMade
  if cand ≠ ∅ then (s, some ((safeSel cand).1, (safeSel cand).2, 0))
  else
    let fringe := fringeList s.knowledge
    if fringe = [] then (s, getSmartGuess rows cols shuf pickE pickR s)
    else
      let comps := getComponents s.knowledge fringe
      let best := bestComponentMove comps (fun comp => hybridScoreComponent s.knowledge comp rng)
      match best.1 with
      | some m => (s, some (m.1, m.2, 0))
      | none => (s, getSmartGuess rows cols shuf pickE pickR s)

/-- `MCMCAgent.get_action`. -/
def mcmcGetAction (rows cols fuel : ℕ) (safeSel : Finset Cell → Cell)
    (shuf : List Cell → List Cell) (pickE pickR : List Cell → Cell)
    (flip : ℕ → Cell) (accept : ℕ → Bool) (init : Cell → Bool)
    (s : KB) (obs : Cell → ℤ) : KB × Option AgentAction :=
  let s := syncObs rows cols fuel s obs
  let cand := s.safes \ s.movesMade
  if cand ≠ ∅ then (s, some ((safeSel cand).1, (safeSel cand).2, 0))
  else
    let fringe := fringeList s.knowledge
    if fringe = [] then (s, getSmartGuess rows cols shuf pickE pickR s)
    else
      let comps := getComponents s.knowledge fringe
      let best := bestComponentMove comps
        (fun comp => mcmcScoreComponent s.knowledge comp flip accept init)
      match best.1 with
      | some m => (s, some (m.1, m.2, 0))
      | none => (s, getSmartGuess rows cols shuf pickE pickR s)

/-!
## Concrete scenario states used by the claims
-/

/-- Scenario A (spec §8): a single sentence `{(0,0), (0,1)} = 1`. -/
def knScenA : List Sentence := [⟨{((0:ℤ),(0:ℤ)), ((0:ℤ),(1:ℤ))}, 1⟩]

/-- The component list of scenario A. -/
def compScenA : List Cell := [((0:ℤ),(0:ℤ)), ((0:ℤ),(1:ℤ))]

/-- Scenario C (spec §8): sentences `{A,B,C} = 1` and `{A,B} = 1` with
`A = (0,0)`, `B = (0,1)`, `C = (0,2)`. -/
def kbScenC : KB :=
  ⟨∅, ∅, ∅, [⟨{((0:ℤ),(0:ℤ)), ((0:ℤ),(1:ℤ)), ((0:ℤ),(2:ℤ))}, 1⟩,
             ⟨{((0:ℤ),(0:ℤ)), ((0:ℤ),(1:ℤ))}, 1⟩]⟩

/-- A contradictory knowledge base on a 2×2 grid: the single sentence
`{(0,0)} = 2` admits no valid assignment; `(1,1)` is revealed. -/
def kbContra : KB :=
  ⟨{((1:ℤ),(1:ℤ))}, ∅, {((1:ℤ),(1:ℤ))}, [⟨{((0:ℤ),(0:ℤ))}, 2⟩]⟩

/-- The observation matching `kbContra`: only `(1,1)` is revealed (hint 2). -/
def obsContra : Cell → ℤ := fun c => if c = ((1:ℤ),(1:ℤ)) then 2 else -2

/-- A one-row component of `n` cells `(0,0) … (0,n−1)`, used for the
threshold boundary tests at sizes 18, 19 and 20. -/
def rowComp (n : ℕ) : Finset Cell :=
  ((List.range n).map (fun i => (((0:ℤ), (i:ℤ)) : Cell))).toFinset

/-!
## Soundness with respect to a true mine layout

A knowledge base reached by the agent on any truthfully-reported board is
sound for the actual layout `μ`: every sentence counts exactly the mines
among its cells, only mentions grid cells, and mentions no cell already
marked, and the recorded facts are correct.  This is the invariant under
which the deduction loop is analysed.
-/

/-- A sentence is exact for the layout `μ`: its count equals the number of
its cells that are mines under `μ`. -/
def Sentence.exactFor (μ : Cell → Bool) (s : Sentence) : Prop :=
  s.count = ((s.cells.filter (fun c => μ c)).card : ℤ)

/-- Soundness of a knowledge-base state for the layout `μ` over `grid`. -/
structure SoundState (grid : Finset Cell) (μ : Cell → Bool) (s : KB) : Prop where
  mem_grid : ∀ t ∈ s.knowledge, t.cells ⊆ grid
  exact_counts : ∀ t ∈ s.knowledge, t.exactFor μ
  cells_fresh : ∀ t ∈ s.knowledge, ∀ c ∈ t.cells, c ∉ s.safes ∧ c ∉ s.mines
  safes_correct : ∀ c ∈ s.safes, μ c = false
  mines_correct : ∀ c ∈ s.mines, μ c = true

/-- The 3×3 window around a cell as a `Finset` comprehension (used to state
claim C4's neighbor sets independently of the source's enumeration loop). -/
def windowOf (cell : Cell) : Finset Cell :=
  Finset.Icc (cell.1 - 1) (cell.1 + 1) ×ˢ Finset.Icc (cell.2 - 1) (cell.2 + 1)

/-- The in-bounds neighbors of `cell` that are neither known mines nor known
safe — the cells of the sentence built by ingest. -/
def hiddenNbrsOf (rows cols : ℕ) (mines safes : Finset Cell) (cell : Cell) : Finset Cell :=
  (windowOf cell).filter
    (fun p => p ≠ cell ∧ 0 ≤ p.1 ∧ p.1 < (rows : ℤ) ∧ 0 ≤ p.2 ∧ p.2 < (cols : ℤ) ∧
      p ∉ mines ∧ p ∉ safes)

/-- The in-bounds neighbors of `cell` that are known mines — the cells whose
number is subtracted from the hint by ingest. -/
def flaggedNbrsOf (rows cols : ℕ) (mines : Finset Cell) (cell : Cell) : Finset Cell :=
  (windowOf cell).filter
    (fun p => p ≠ cell ∧ 0 ≤ p.1 ∧ p.1 < (rows : ℤ) ∧ 0 ≤ p.2 ∧ p.2 < (cols : ℤ) ∧
      p ∈ mines)

/-- All sentences over `grid` that satisfy the count invariant
`0 ≤ count ≤ |cells|` — a finite universe bounding the sentences a sound
deduction run can ever hold. -/
def sentenceUniverse (grid : Finset Cell) : Finset Sentence :=
  grid.powerset.biUnion fun S =>
    (Finset.range (S.card + 1)).image fun k : ℕ => (⟨S, (k : ℤ)⟩ : Sentence)

/-- The termination measure of the deduction loop: unknown safe/mine facts
weighted past the universe size, plus the universe sentences (with
non-empty cells) still absent from the knowledge list. -/
def kbMeasure (grid : Finset Cell) (s : KB) : ℕ :=
  ((grid \ s.safes).card + (grid \ s.mines).card) * ((sentenceUniverse grid).card + 1) +
    ((sentenceUniverse grid).filter (fun t => t.cells ≠ ∅ ∧ t ∉ s.knowledge)).card

/-- The returned action, if any, is a reveal (`kind = 0`), never a flag. -/
def isRevealAction : Option AgentAction → Prop
  | none => True
  | some a => a.2.2 = 0

/-!
## Helper lemmas about `sortCells`
-/
theorem mem_sortCells {F : Finset Cell} {a : Cell} : a ∈ sortCells F ↔ a ∈ F := by
  rcases F with ⟨m, nd⟩
  induction m using Quot.inductionOn with
  | h l =>
      show a ∈ l.insertionSort cellLE ↔ _
      rw [(List.perm_insertionSort cellLE l).mem_iff]
      simp [Finset.mem_mk]

theorem sortCells_nodup (F : Finset Cell) : (sortCells F).Nodup := by
  rcases F with ⟨m, nd⟩
  induction m using Quot.inductionOn with
  | h l =>
      exact (List.perm_insertionSort cellLE l).nodup_iff.mpr nd

theorem sortCells_toFinset (F : Finset Cell) : (sortCells F).toFinset = F := by
  ext a
  simp [mem_sortCells]

theorem sortCells_length (F : Finset Cell) : (sortCells F).length = F.card := by
  rcases F with ⟨m, nd⟩
  induction m using Quot.inductionOn with
  | h l =>
      show (l.insertionSort cellLE).length = _
      rw [(List.perm_insertionSort cellLE l).length_eq]
      simp [Finset.card_mk]


/-!
## Claim C9 — idempotence of the mark operations
-/

/-- C9: `mark_safe` and `mark_mine` are idempotent: calling either a second
time with the same cell is a no-op that leaves the entire knowledge base
(moves, known mines, known safes, and every sentence) unchanged. -/
theorem mark_ops_idempotent (s : KB) (c : Cell) :
    kbMarkSafe (kbMarkSafe s c) c = kbMarkSafe s c ∧
    kbMarkMine (kbMarkMine s c) c = kbMarkMine s c := by
  constructor
  · by_cases h : c ∈ s.safes
    · simp [kbMarkSafe, h]
    · simp [kbMarkSafe, h]
  · by_cases h : c ∈ s.mines
    · simp [kbMarkMine, h]
    · simp [kbMarkMine, h]

/-!
## Claim C8 — scenario A for the exact estimator
-/

/-- C8: for the single sentence `{(0,0), (0,1)} = 1` the exact enumeration
finds exactly 2 valid assignments and mine probability 1/2 for each of the
two cells (the solver then reports the first cell at probability 1/2). -/
theorem exact_estimator_scenarioA :
    validWorlds knScenA compScenA = 2 ∧
    (mineTally knScenA compScenA ((0:ℤ),(0:ℤ)) : ℚ) / (validWorlds knScenA compScenA : ℚ) = 1/2 ∧
    (mineTally knScenA compScenA ((0:ℤ),(1:ℤ)) : ℚ) / (validWorlds knScenA compScenA : ℚ) = 1/2 ∧
    solveComponentExact knScenA compScenA = (some ((0:ℤ),(0:ℤ)), 1/2) := by
  have h1 : validWorlds knScenA [((0:ℤ),(0:ℤ)), ((0:ℤ),(1:ℤ))] = 2 := by decide
  have h2 : mineTally knScenA [((0:ℤ),(0:ℤ)), ((0:ℤ),(1:ℤ))] ((0:ℤ),(0:ℤ)) = 1 := by decide
  have h3 : mineTally knScenA [((0:ℤ),(0:ℤ)), ((0:ℤ),(1:ℤ))] ((0:ℤ),(1:ℤ)) = 1 := by decide
  refine ⟨by decide, ?_, ?_, ?_⟩
  · rw [show compScenA = [((0:ℤ),(0:ℤ)), ((0:ℤ),(1:ℤ))] from rfl, h1, h2]
    norm_num
  · rw [show compScenA = [((0:ℤ),(0:ℤ)), ((0:ℤ),(1:ℤ))] from rfl, h1, h3]
    norm_num
  · simp only [solveComponentExact, bestOf, compScenA, List.foldl, h1, h2, h3]
    norm_num

/-!
## Claim C6 — estimator routing by component size
-/

/-- C6: both the hybrid and the MCMC agent route a frontier component by its
size alone, with threshold 18: at most 18 cells goes to the exact
enumeration, more than 18 cells goes to the approximate estimator (Monte
Carlo for the hybrid agent, simulated annealing for the MCMC agent) and
never to the exact path. -/
theorem estimator_routing_threshold (kn : List Sentence) (comp : Finset Cell)
    (rng : ℕ → Cell → Bool) (flip : ℕ → Cell) (accept : ℕ → Bool) (init : Cell → Bool) :
    (18 < comp.card →
      hybridScoreComponent kn comp rng = solveComponentMonteCarlo kn (sortCells comp) rng ∧
      mcmcScoreComponent kn comp flip accept init =
        solveComponentMcmc kn (sortCells comp) flip accept init) ∧
    (comp.card ≤ 18 →
      hybridScoreComponent kn comp rng = solveComponentExact kn (sortCells comp) ∧
      mcmcScoreComponent kn comp flip accept init =
        mcmcSolveComponentExact kn (sortCells comp)) := by
  constructor
  · intro h
    constructor
    · rw [hybridScoreComponent, if_neg (by omega)]
    · rw [mcmcScoreComponent, if_neg (by omega)]
  · intro h
    constructor
    · rw [hybridScoreComponent, if_pos h]
    · rw [mcmcScoreComponent, if_pos h]

/-- Witness for C6 at the boundary sizes 18, 19 and 20. -/
theorem estimator_routing_threshold_witness :
    ((rowComp 18).card ≤ 18 ∧
      hybridScoreComponent [] (rowComp 18) (fun _ _ => false) =
        solveComponentExact [] (sortCells (rowComp 18))) ∧
    (18 < (rowComp 19).card ∧
      hybridScoreComponent [] (rowComp 19) (fun _ _ => false) =
        solveComponentMonteCarlo [] (sortCells (rowComp 19)) (fun _ _ => false)) ∧
    (18 < (rowComp 20).card ∧
      mcmcScoreComponent [] (rowComp 20) (fun _ => ((0:ℤ),(0:ℤ))) (fun _ => false)
          (fun _ => false) =
        solveComponentMcmc [] (sortCells (rowComp 20)) (fun _ => ((0:ℤ),(0:ℤ)))
          (fun _ => false) (fun _ => false)) := by
  have c18 : (rowComp 18).card ≤ 18 := by decide
  have c19 : 18 < (rowComp 19).card := by decide
  have c20 : 18 < (rowComp 20).card := by decide
  exact ⟨⟨c18, ((estimator_routing_threshold [] (rowComp 18) (fun _ _ => false)
      (fun _ => ((0:ℤ),(0:ℤ))) (fun _ => false) (fun _ => false)).2 c18).1⟩,
    ⟨c19, ((estimator_routing_threshold [] (rowComp 19) (fun _ _ => false)
      (fun _ => ((0:ℤ),(0:ℤ))) (fun _ => false) (fun _ => false)).1 c19).1⟩,
    ⟨c20, ((estimator_routing_threshold [] (rowComp 20) (fun _ _ => false)
      (fun _ => ((0:ℤ),(0:ℤ))) (fun _ => false) (fun _ => false)).1 c20).2⟩⟩

/-!
## Claim C5 — behavior on a contradictory component

The spec calls a component whose exact enumeration yields zero valid
assignments a hard failure after which no further move may be picked.  The
source instead has `solve_component_exact` return `(None, 1.0)`, skips the
component in the best-move scan, and falls through to
`get_smart_guess`, which keeps picking moves.
-/

/-- C5 counterexample: on `kbContra` the only frontier component is
`{(0,0)}`, its exact enumeration finds zero valid assignments, and yet
`HybridAgent.get_action` (instantiated with any concrete randomness, here
the identity shuffle and first-element choice) still returns the corner
move `(0,0)` instead of failing. -/
theorem contradiction_not_fatal_counterexample :
    getComponents kbContra.knowledge (fringeList kbContra.knowledge) = [{((0:ℤ),(0:ℤ))}] ∧
    validWorlds kbContra.knowledge [((0:ℤ),(0:ℤ))] = 0 ∧
    solveComponentExact kbContra.knowledge [((0:ℤ),(0:ℤ))] = (none, 1) ∧
    (hybridGetAction 2 2 1 (fun _ => ((0:ℤ),(0:ℤ))) id (fun l => l.headD ((0:ℤ),(0:ℤ)))
        (fun l => l.headD ((0:ℤ),(0:ℤ))) (fun _ _ => false) kbContra obsContra).2 =
      some ((0:ℤ), (0:ℤ), 0) := by
  refine ⟨by decide, by decide, ?_, by decide⟩
  rw [solveComponentExact, if_pos (by decide)]

/-- C5 as amended: when the exact enumeration of a component yields zero
valid assignments, `solve_component_exact` reports no cell and probability
1.0; this is not surfaced as a failure — the component is skipped and the
agent falls back to heuristic guessing, continuing to pick moves from the
same knowledge base (witnessed by the concrete contradictory state). -/
theorem contradiction_skipped_and_agent_continues
    (kn : List Sentence) (comp : List Cell) (h : validWorlds kn comp = 0) :
    solveComponentExact kn comp = (none, 1) ∧
    (hybridGetAction 2 2 1 (fun _ => ((0:ℤ),(0:ℤ))) id (fun l => l.headD ((0:ℤ),(0:ℤ)))
        (fun l => l.headD ((0:ℤ),(0:ℤ))) (fun _ _ => false) kbContra obsContra).2 =
      some ((0:ℤ), (0:ℤ), 0) := by
  refine ⟨?_, by decide⟩
  rw [solveComponentExact, if_pos h]

/-- Witness for the amended C5 at the concrete contradictory component. -/
theorem contradiction_skipped_witness :
    validWorlds kbContra.knowledge [((0:ℤ),(0:ℤ))] = 0 ∧
    solveComponentExact kbContra.knowledge [((0:ℤ),(0:ℤ))] = (none, 1) := by
  have h : validWorlds kbContra.knowledge [((0:ℤ),(0:ℤ))] = 0 := by decide
  exact ⟨h, (contradiction_skipped_and_agent_continues kbContra.knowledge
    [((0:ℤ),(0:ℤ))] h).1⟩

/-!
## Claim C10 — every issued action is a reveal
-/

theorem getSmartGuess_reveal (rows cols : ℕ) (shuf : List Cell → List Cell)
    (pickE pickR : List Cell → Cell) (s : KB) :
    isRevealAction (getSmartGuess rows cols shuf pickE pickR s) := by
  unfold getSmartGuess
  dsimp only
  split
  · simp [isRevealAction]
  · split_ifs <;> simp [isRevealAction]

/-- C10: whatever the observation, the knowledge base, and the injected
randomness, the CSP, hybrid, and MCMC agents only ever return reveal
actions (kind 0); none of them ever issues a flag action. -/
theorem agents_only_reveal (rows cols fuel : ℕ) (safeSel : Finset Cell → Cell)
    (shuf : List Cell → List Cell) (pickE pickR : List Cell → Cell)
    (rng : ℕ → Cell → Bool) (flip : ℕ → Cell) (accept : ℕ → Bool) (init : Cell → Bool)
    (s : KB) (obs : Cell → ℤ) :
    isRevealAction (cspGetAction rows cols fuel safeSel pickR s obs).2 ∧
    isRevealAction
      (hybridGetAction rows cols fuel safeSel shuf pickE pickR rng s obs).2 ∧
    isRevealAction
      (mcmcGetAction rows cols fuel safeSel shuf pickE pickR flip accept init s obs).2 := by
  refine ⟨?_, ?_, ?_⟩
  · unfold cspGetAction
    dsimp only
    split_ifs <;> simp [isRevealAction]
  · unfold hybridGetAction
    dsimp only
    split_ifs
    · simp [isRevealAction]
    · exact getSmartGuess_reveal ..
    · split
      · simp [isRevealAction]
      · exact getSmartGuess_reveal ..
  · unfold mcmcGetAction
    dsimp only
    split_ifs
    · simp [isRevealAction]
    · exact getSmartGuess_reveal ..
    · split
      · simp [isRevealAction]
      · exact getSmartGuess_reveal ..


/-!
## Claim C4 — shape of the ingest operation
-/

theorem mem_neighborhood (cell p : Cell) :
    p ∈ neighborhood cell ↔
      cell.1 - 1 ≤ p.1 ∧ p.1 ≤ cell.1 + 1 ∧ cell.2 - 1 ≤ p.2 ∧ p.2 ≤ cell.2 + 1 ∧
        p ≠ cell := by
  rcases p with ⟨a, b⟩
  rcases cell with ⟨x, y⟩
  simp only [neighborhood, List.mem_filter, List.mem_flatMap, List.mem_map,
    List.mem_cons, List.mem_singleton, List.not_mem_nil, or_false, decide_eq_true_eq]
  constructor
  · rintro ⟨⟨r, hr, c, hc, he⟩, hne⟩
    obtain ⟨rfl, rfl⟩ : r = a ∧ c = b :=
      ⟨congrArg Prod.fst he, congrArg Prod.snd he⟩
    refine ⟨?_, ?_, ?_, ?_, hne⟩ <;> rcases hr with h | h | h <;>
      rcases hc with h' | h' | h' <;> omega
  · rintro ⟨h1, h2, h3, h4, hne⟩
    exact ⟨⟨a, by omega, b, by omega, rfl⟩, hne⟩

theorem neighborhood_nodup (cell : Cell) : (neighborhood cell).Nodup := by
  rcases cell with ⟨x, y⟩
  have hdisj : ∀ r1 r2 : ℤ, r1 ≠ r2 →
      (List.map (fun c => ((r1, c) : Cell)) [y - 1, y, y + 1]).Disjoint
        (List.map (fun c => ((r2, c) : Cell)) [y - 1, y, y + 1]) := by
    intro r1 r2 hne
    simp only [List.disjoint_left, List.mem_map]
    rintro p ⟨c1, _, rfl⟩ ⟨c2, _, he⟩
    exact hne (congrArg Prod.fst he).symm
  refine List.Nodup.filter _ ?_
  refine List.nodup_flatMap.mpr ⟨?_, ?_⟩
  · intro r _
    refine List.Nodup.map (fun c1 c2 h => congrArg Prod.snd h) ?_
    simp
    omega
  · simp only [List.pairwise_cons, List.mem_cons, List.not_mem_nil, or_false,
      List.mem_singleton, Function.onFun]
    refine ⟨?_, ?_, ?_⟩
    · rintro a' (rfl | rfl) <;> exact hdisj _ _ (by omega)
    · rintro a' rfl
      exact hdisj _ _ (by omega)
    · exact ⟨fun a h => absurd h (by simp), List.Pairwise.nil⟩

theorem inBoundsNeighbors_nodup (rows cols : ℕ) (cell : Cell) :
    (inBoundsNeighbors rows cols cell).Nodup :=
  (neighborhood_nodup cell).filter _

theorem kbMarkSafe_movesMade (kb : KB) (c : Cell) :
    (kbMarkSafe kb c).movesMade = kb.movesMade := by
  unfold kbMarkSafe
  split <;> rfl

theorem kbMarkSafe_mines (kb : KB) (c : Cell) :
    (kbMarkSafe kb c).mines = kb.mines := by
  unfold kbMarkSafe
  split <;> rfl

theorem mem_kbMarkSafe_safes (kb : KB) (c : Cell) : c ∈ (kbMarkSafe kb c).safes := by
  unfold kbMarkSafe
  split
  · assumption
  · exact Finset.mem_insert_self c kb.safes

/-- C4: ingesting a newly revealed cell with hint `h` marks it safe, records
it in `moves_made`, leaves the known mines unchanged, and appends exactly
one sentence whose cells are the in-bounds neighbors that are neither known
safe nor known mines, with count `h - (number of known-mine neighbors)`;
when that neighbor set is empty no sentence is appended.  The neighbor sets
are stated as independent window comprehensions (`hiddenNbrsOf`,
`flaggedNbrsOf`). -/
theorem ingest_characterization (rows cols : ℕ) (kb : KB) (cell : Cell) (h : ℤ) :
    (addKnowledgeCore rows cols kb cell h).movesMade = insert cell kb.movesMade ∧
    cell ∈ (addKnowledgeCore rows cols kb cell h).safes ∧
    (addKnowledgeCore rows cols kb cell h).mines = kb.mines ∧
    (hiddenNbrsOf rows cols kb.mines (kbMarkSafe kb cell).safes cell ≠ ∅ →
      (addKnowledgeCore rows cols kb cell h).knowledge =
        (kbMarkSafe kb cell).knowledge ++
          [⟨hiddenNbrsOf rows cols kb.mines (kbMarkSafe kb cell).safes cell,
            h - ((flaggedNbrsOf rows cols kb.mines cell).card : ℤ)⟩]) ∧
    (hiddenNbrsOf rows cols kb.mines (kbMarkSafe kb cell).safes cell = ∅ →
      (addKnowledgeCore rows cols kb cell h).knowledge = (kbMarkSafe kb cell).knowledge) := by
  have hmem : ∀ p : Cell, p ∈ inBoundsNeighbors rows cols cell ↔
      (p ∈ windowOf cell ∧ p ≠ cell ∧ 0 ≤ p.1 ∧ p.1 < (rows : ℤ) ∧ 0 ≤ p.2 ∧
        p.2 < (cols : ℤ)) := by
    intro p
    rw [inBoundsNeighbors, List.mem_filter]
    simp only [mem_neighborhood, windowOf, Finset.mem_product, Finset.mem_Icc,
      decide_eq_true_eq]
    tauto
  have hcells : ((inBoundsNeighbors rows cols cell).filter
      (fun p => decide (p ∉ (kbMarkSafe kb cell).mines ∧ p ∉ (kbMarkSafe kb cell).safes))).toFinset
        = hiddenNbrsOf rows cols kb.mines (kbMarkSafe kb cell).safes cell := by
    ext p
    rw [List.mem_toFinset, List.mem_filter]
    simp only [hmem, hiddenNbrsOf, Finset.mem_filter, decide_eq_true_eq,
      kbMarkSafe_mines]
    tauto
  have hflag : ((inBoundsNeighbors rows cols cell).filter
      (fun p => decide (p ∈ (kbMarkSafe kb cell).mines))).toFinset
        = flaggedNbrsOf rows cols kb.mines cell := by
    ext p
    rw [List.mem_toFinset, List.mem_filter]
    simp only [hmem, flaggedNbrsOf, Finset.mem_filter, decide_eq_true_eq, kbMarkSafe_mines]
    tauto
  have hflaglen : ((inBoundsNeighbors rows cols cell).filter
      (fun p => decide (p ∈ (kbMarkSafe kb cell).mines))).length
        = (flaggedNbrsOf rows cols kb.mines cell).card := by
    rw [← hflag,
      List.toFinset_card_of_nodup ((inBoundsNeighbors_nodup rows cols cell).filter _)]
  refine ⟨?_, ?_, ?_, ?_, ?_⟩
  · unfold addKnowledgeCore
    dsimp only
    split <;> simp [kbMarkSafe_movesMade]
  · unfold addKnowledgeCore
    dsimp only
    split <;> exact mem_kbMarkSafe_safes kb cell
  · unfold addKnowledgeCore
    dsimp only
    split <;> exact kbMarkSafe_mines kb cell
  · intro hne
    unfold addKnowledgeCore
    dsimp only
    split
    · rename_i heq
      refine absurd ?_ hne
      rw [← hcells, heq]
      simp
    · rw [hcells, hflaglen]
  · intro he
    unfold addKnowledgeCore
    dsimp only
    split
    · rfl
    · rename_i heq
      rw [← hcells, List.toFinset_eq_empty_iff] at he
      exact absurd he heq

/-- Witness for C4: ingesting `(0,0)` with hint 1 on an empty 2×2 knowledge
base appends the sentence over the three hidden neighbors. -/
theorem ingest_characterization_witness :
    hiddenNbrsOf 2 2 (∅ : Finset Cell) (kbMarkSafe ⟨∅, ∅, ∅, []⟩ ((0:ℤ),(0:ℤ))).safes
        ((0:ℤ),(0:ℤ)) ≠ ∅ ∧
    (addKnowledgeCore 2 2 ⟨∅, ∅, ∅, []⟩ ((0:ℤ),(0:ℤ)) 1).knowledge =
      (kbMarkSafe ⟨∅, ∅, ∅, []⟩ ((0:ℤ),(0:ℤ))).knowledge ++
        [⟨hiddenNbrsOf 2 2 (∅ : Finset Cell)
            (kbMarkSafe ⟨∅, ∅, ∅, []⟩ ((0:ℤ),(0:ℤ))).safes ((0:ℤ),(0:ℤ)),
          1 - ((flaggedNbrsOf 2 2 (∅ : Finset Cell) ((0:ℤ),(0:ℤ))).card : ℤ)⟩] := by
  have hne : hiddenNbrsOf 2 2 (∅ : Finset Cell)
      (kbMarkSafe ⟨∅, ∅, ∅, []⟩ ((0:ℤ),(0:ℤ))).safes ((0:ℤ),(0:ℤ)) ≠ ∅ := by decide
  exact ⟨hne, (ingest_characterization 2 2 ⟨∅, ∅, ∅, []⟩ ((0:ℤ),(0:ℤ)) 1).2.2.2.1 hne⟩

theorem exactFor_bounds {μ : Cell → Bool} {t : Sentence} (h : t.exactFor μ) :
    0 ≤ t.count ∧ t.count ≤ (t.cells.card : ℤ) := by
  unfold Sentence.exactFor at h
  constructor
  · rw [h]
    exact_mod_cast Nat.zero_le _
  · rw [h]
    exact_mod_cast Finset.card_filter_le _ _

theorem exactFor_mark_safe {μ : Cell → Bool} {x : Cell} (hx : μ x = false)
    {t : Sentence} (h : t.exactFor μ) : (t.mark_safe x).exactFor μ := by
  unfold Sentence.mark_safe
  split
  · unfold Sentence.exactFor at h ⊢
    dsimp only
    rw [Finset.filter_erase, Finset.erase_eq_of_not_mem, ← h]
    simp [hx]
  · exact h

theorem exactFor_mark_mine {μ : Cell → Bool} {y : Cell} (hy : μ y = true)
    {t : Sentence} (h : t.exactFor μ) : (t.mark_mine y).exactFor μ := by
  unfold Sentence.mark_mine
  split
  · rename_i hmem
    unfold Sentence.exactFor at h ⊢
    dsimp only
    have hmf : y ∈ t.cells.filter (fun c => μ c) := Finset.mem_filter.mpr ⟨hmem, hy⟩
    have hpos : 1 ≤ (t.cells.filter (fun c => μ c)).card := Finset.card_pos.mpr ⟨y, hmf⟩
    rw [Finset.filter_erase, Finset.card_erase_of_mem hmf]
    omega
  · exact h

/-- C3: in any sound knowledge-base state (any state reachable on a
truthfully-reported board), every sentence satisfies `0 ≤ count ≤ |cells|`,
and the invariant still holds for every sentence after `mark_safe` on a
truly-safe cell or `mark_mine` on a true mine (each of which simplifies
every sentence in place). -/
theorem count_invariant_after_marks (grid : Finset Cell) (μ : Cell → Bool) (kb : KB)
    (x y : Cell) (hs : SoundState grid μ kb) (hx : μ x = false) (hy : μ y = true) :
    (∀ t ∈ kb.knowledge, 0 ≤ t.count ∧ t.count ≤ (t.cells.card : ℤ)) ∧
    (∀ t ∈ (kbMarkSafe kb x).knowledge, 0 ≤ t.count ∧ t.count ≤ (t.cells.card : ℤ)) ∧
    (∀ t ∈ (kbMarkMine kb y).knowledge, 0 ≤ t.count ∧ t.count ≤ (t.cells.card : ℤ)) := by
  refine ⟨fun t ht => exactFor_bounds (hs.exact_counts t ht), ?_, ?_⟩
  · intro t ht
    unfold kbMarkSafe at ht
    split at ht
    · exact exactFor_bounds (hs.exact_counts t ht)
    · dsimp only at ht
      obtain ⟨u, hu, rfl⟩ := List.mem_map.mp ht
      exact exactFor_bounds (exactFor_mark_safe hx (hs.exact_counts u hu))
  · intro t ht
    unfold kbMarkMine at ht
    split at ht
    · exact exactFor_bounds (hs.exact_counts t ht)
    · dsimp only at ht
      obtain ⟨u, hu, rfl⟩ := List.mem_map.mp ht
      exact exactFor_bounds (exactFor_mark_mine hy (hs.exact_counts u hu))

/-- Witness for C3 on a concrete sound two-cell state. -/
theorem count_invariant_witness :
    (∀ t ∈ (⟨∅, ∅, ∅, [⟨{((0:ℤ),(0:ℤ)), ((0:ℤ),(1:ℤ))}, 1⟩]⟩ : KB).knowledge,
        0 ≤ t.count ∧ t.count ≤ (t.cells.card : ℤ)) ∧
    (∀ t ∈ (kbMarkSafe ⟨∅, ∅, ∅, [⟨{((0:ℤ),(0:ℤ)), ((0:ℤ),(1:ℤ))}, 1⟩]⟩
          ((0:ℤ),(0:ℤ))).knowledge,
        0 ≤ t.count ∧ t.count ≤ (t.cells.card : ℤ)) := by
  have hs : SoundState {((0:ℤ),(0:ℤ)), ((0:ℤ),(1:ℤ))}
      (fun c => decide (c = ((0:ℤ),(1:ℤ))))
      ⟨∅, ∅, ∅, [⟨{((0:ℤ),(0:ℤ)), ((0:ℤ),(1:ℤ))}, 1⟩]⟩ :=
    ⟨by decide, by unfold Sentence.exactFor; decide, by decide, by decide, by decide⟩
  have h := count_invariant_after_marks {((0:ℤ),(0:ℤ)), ((0:ℤ),(1:ℤ))}
    (fun c => decide (c = ((0:ℤ),(1:ℤ)))) ⟨∅, ∅, ∅, [⟨{((0:ℤ),(0:ℤ)), ((0:ℤ),(1:ℤ))}, 1⟩]⟩
    ((0:ℤ),(0:ℤ)) ((0:ℤ),(1:ℤ)) hs (by decide) (by decide)
  exact ⟨h.1, h.2.1⟩

/-!
## Claim C1 — subset resolution
-/

theorem deriveStep_eq_or (full : List Sentence) (s1 : Sentence) (acc : List Sentence)
    (s2 : Sentence) :
    deriveStep full s1 acc s2 = acc ∨
      deriveStep full s1 acc s2 =
        acc ++ [⟨s2.cells \ s1.cells, s2.count - s1.count⟩] := by
  unfold deriveStep
  split_ifs <;> simp

theorem foldl_deriveStep_split (full : List Sentence) (s1 : Sentence) :
    ∀ (todo acc : List Sentence), ∃ l, todo.foldl (deriveStep full s1) acc = acc ++ l := by
  intro todo
  induction todo with
  | nil => exact fun acc => ⟨[], by simp⟩
  | cons s2 tl ih =>
      intro acc
      obtain ⟨l, hl⟩ := ih (deriveStep full s1 acc s2)
      rcases deriveStep_eq_or full s1 acc s2 with h | h
      · exact ⟨l, by rw [List.foldl_cons, hl, h]⟩
      · exact ⟨⟨s2.cells \ s1.cells, s2.count - s1.count⟩ :: l,
          by rw [List.foldl_cons, hl, h]; simp⟩

theorem mem_foldl_deriveStep (full : List Sentence) (s1 : Sentence)
    (todo acc : List Sentence) {x : Sentence} (hx : x ∈ acc) :
    x ∈ todo.foldl (deriveStep full s1) acc := by
  obtain ⟨l, hl⟩ := foldl_deriveStep_split full s1 todo acc
  rw [hl]
  exact List.mem_append_left l hx

theorem foldl_deriveStep_hit (full : List Sentence) {s1 s2 : Sentence}
    (hne : s1 ≠ s2) (hsub : s1.cells ⊆ s2.cells) (hdiff : s2.cells \ s1.cells ≠ ∅)
    (hfull : (⟨s2.cells \ s1.cells, s2.count - s1.count⟩ : Sentence) ∉ full) :
    ∀ (todo acc : List Sentence), s2 ∈ todo →
      (⟨s2.cells \ s1.cells, s2.count - s1.count⟩ : Sentence) ∈
        todo.foldl (deriveStep full s1) acc := by
  intro todo
  induction todo with
  | nil => exact fun acc h => absurd h (List.not_mem_nil _)
  | cons hd tl ih =>
      intro acc hmem
      rcases List.mem_cons.mp hmem with rfl | hmem'
      · refine mem_foldl_deriveStep full s1 tl _ ?_
        unfold deriveStep
        rw [if_neg hne, if_pos hsub, if_pos hdiff]
        by_cases hacc : (⟨s2.cells \ s1.cells, s2.count - s1.count⟩ : Sentence) ∈ acc
        · rw [if_neg (fun hc => hc.2 hacc)]
          exact hacc
        · rw [if_pos ⟨hfull, hacc⟩]
          exact List.mem_append_right acc (List.mem_singleton.mpr rfl)
      · exact ih _ hmem'

theorem mem_foldl_outer (kn : List Sentence) {x : Sentence} :
    ∀ (todo acc : List Sentence), x ∈ acc →
      x ∈ todo.foldl (fun acc s1 => kn.foldl (deriveStep kn s1) acc) acc := by
  intro todo
  induction todo with
  | nil => exact fun _ hx => hx
  | cons hd tl ih =>
      intro acc hx
      rw [List.foldl_cons]
      exact ih _ (mem_foldl_deriveStep kn hd kn acc hx)

theorem foldl_outer_hit (kn : List Sentence) {A B : Sentence} (hB : B ∈ kn)
    (hne : A ≠ B) (hsub : A.cells ⊆ B.cells) (hdiff : B.cells \ A.cells ≠ ∅)
    (hfull : (⟨B.cells \ A.cells, B.count - A.count⟩ : Sentence) ∉ kn) :
    ∀ (todo acc : List Sentence), A ∈ todo →
      (⟨B.cells \ A.cells, B.count - A.count⟩ : Sentence) ∈
        todo.foldl (fun acc s1 => kn.foldl (deriveStep kn s1) acc) acc := by
  intro todo
  induction todo with
  | nil => exact fun acc h => absurd h (List.not_mem_nil _)
  | cons hd tl ih =>
      intro acc hmem
      rcases List.mem_cons.mp hmem with rfl | hmem'
      · rw [List.foldl_cons]
        exact mem_foldl_outer kn tl _
          (foldl_deriveStep_hit kn hne hsub hdiff hfull kn acc hB)
      · rw [List.foldl_cons]
        exact ih _ hmem'

/-- C1: for every ordered pair of value-distinct sentences `(A, B)` in the
knowledge list with `A.cells ⊆ B.cells`, non-empty difference, and the
derived sentence not already present, the subset-resolution pass derives
`⟨B.cells − A.cells, B.count − A.count⟩` (which `inferStep` appends to the
knowledge); and in scenario C the fixpoint deduction on `{A,B,C}=1`,
`{A,B}=1` marks `C = (0,2)` safe and then reaches a fixpoint. -/
theorem subset_resolution_derives (kn : List Sentence) (A B : Sentence)
    (hA : A ∈ kn) (hB : B ∈ kn) (hne : A ≠ B) (hsub : A.cells ⊆ B.cells)
    (hdiff : B.cells \ A.cells ≠ ∅)
    (hnew : (⟨B.cells \ A.cells, B.count - A.count⟩ : Sentence) ∉ kn) :
    (⟨B.cells \ A.cells, B.count - A.count⟩ : Sentence) ∈ subsetDerive kn ∧
    ((0:ℤ),(2:ℤ)) ∈ (inferFuel 4 kbScenC).safes ∧
    (inferStep (inferFuel 4 kbScenC)).2 = false := by
  refine ⟨?_, by decide, by decide⟩
  exact foldl_outer_hit kn hB hne hsub hdiff hnew kn [] hA

/-- Witness for C1 at the concrete scenario-C pair. -/
theorem subset_resolution_derives_witness :
    ((⟨{((0:ℤ),(0:ℤ)), ((0:ℤ),(1:ℤ))}, 1⟩ : Sentence) ∈ kbScenC.knowledge ∧
      (⟨{((0:ℤ),(0:ℤ)), ((0:ℤ),(1:ℤ)), ((0:ℤ),(2:ℤ))}, 1⟩ : Sentence) ∈
        kbScenC.knowledge) ∧
    (⟨(⟨{((0:ℤ),(0:ℤ)), ((0:ℤ),(1:ℤ)), ((0:ℤ),(2:ℤ))}, 1⟩ : Sentence).cells \
        (⟨{((0:ℤ),(0:ℤ)), ((0:ℤ),(1:ℤ))}, 1⟩ : Sentence).cells, 1 - 1⟩ : Sentence) ∈
      subsetDerive kbScenC.knowledge := by
  refine ⟨⟨by decide, by decide⟩, ?_⟩
  exact (subset_resolution_derives kbScenC.knowledge
    ⟨{((0:ℤ),(0:ℤ)), ((0:ℤ),(1:ℤ))}, 1⟩
    ⟨{((0:ℤ),(0:ℤ)), ((0:ℤ),(1:ℤ)), ((0:ℤ),(2:ℤ))}, 1⟩
    (by decide) (by decide) (by decide) (by decide) (by decide) (by decide)).1
/-!
## Claim C7 lemmas
-/

theorem mem_nbrsL {kn : List Sentence} {fringe : List Cell} {c d : Cell} :
    d ∈ nbrsL kn fringe c ↔
      c ∈ fringe ∧ d ∈ fringe ∧ d ≠ c ∧ ∃ t ∈ kn, c ∈ t.cells ∧ d ∈ t.cells := by
  unfold nbrsL
  split
  · rename_i hc
    simp only [List.mem_filter, decide_eq_true_eq]
    tauto
  · rename_i hc
    simp only [List.not_mem_nil, false_iff]
    tauto

theorem nbrsL_symm {kn : List Sentence} {fringe : List Cell} {c d : Cell}
    (h : d ∈ nbrsL kn fringe c) : c ∈ nbrsL kn fringe d := by
  rw [mem_nbrsL] at h ⊢
  obtain ⟨h1, h2, h3, t, ht, hc, hd⟩ := h
  exact ⟨h2, h1, fun he => h3 he.symm, t, ht, hd, hc⟩

theorem nbrsL_subset_fringe {kn : List Sentence} {fringe : List Cell} {c : Cell} :
    ∀ d ∈ nbrsL kn fringe c, d ∈ fringe := fun _ hd => (mem_nbrsL.mp hd).2.1

theorem pushNew_spec :
    ∀ (ns acc : List Cell) (vis : Finset Cell),
      ∃ fresh : List Cell,
        ns.foldl (fun a n => if n ∈ a.2 then a else (a.1 ++ [n], insert n a.2))
            (acc, vis) = (acc ++ fresh, vis ∪ fresh.toFinset) ∧
        fresh.Nodup ∧ (∀ x ∈ fresh, x ∈ ns ∧ x ∉ vis) ∧
        (∀ x ∈ ns, x ∉ vis → x ∈ fresh) := by
  intro ns
  induction ns with
  | nil =>
      intro acc vis
      exact ⟨[], by simp, List.nodup_nil, by simp, by simp⟩
  | cons n tl ih =>
      intro acc vis
      rw [List.foldl_cons]
      by_cases hn : n ∈ vis
      · rw [if_pos hn]
        obtain ⟨fresh, heq, hnd, hmem, hcompl⟩ := ih acc vis
        refine ⟨fresh, heq, hnd, fun x hx => ⟨List.mem_cons_of_mem n (hmem x hx).1,
          (hmem x hx).2⟩, ?_⟩
        intro x hx hxv
        rcases List.mem_cons.mp hx with rfl | hx'
        · exact absurd hn hxv
        · exact hcompl x hx' hxv
      · rw [if_neg hn]
        obtain ⟨fresh, heq, hnd, hmem, hcompl⟩ := ih (acc ++ [n]) (insert n vis)
        refine ⟨n :: fresh, ?_, ?_, ?_, ?_⟩
        · rw [heq]
          refine Prod.ext ?_ ?_
          · simp
          · show insert n vis ∪ fresh.toFinset = vis ∪ (n :: fresh).toFinset
            rw [List.toFinset_cons]
            rw [Finset.insert_union, Finset.union_insert]
        · refine List.nodup_cons.mpr ⟨?_, hnd⟩
          intro hmemn
          exact (hmem n hmemn).2 (Finset.mem_insert_self n vis)
        · intro x hx
          rcases List.mem_cons.mp hx with rfl | hx'
          · exact ⟨List.mem_cons_self x tl, hn⟩
          · obtain ⟨h1, h2⟩ := hmem x hx'
            exact ⟨List.mem_cons_of_mem n h1,
              fun hv => h2 (Finset.mem_insert_of_mem hv)⟩
        · intro x hx hxv
          rcases List.mem_cons.mp hx with rfl | hx'
          · exact List.mem_cons_self x fresh
          · by_cases hxi : x ∈ insert n vis
            · rcases Finset.mem_insert.mp hxi with rfl | hv
              · exact List.mem_cons_self x fresh
              · exact absurd hv hxv
            · exact List.mem_cons_of_mem n (hcompl x hx' hxi)

theorem mem_unionComps {l : List (Finset Cell)} {x : Cell} :
    x ∈ unionComps l ↔ ∃ c ∈ l, x ∈ c := by
  induction l with
  | nil => simp [unionComps]
  | cons hd tl ih =>
      show x ∈ hd ∪ unionComps tl ↔ _
      rw [Finset.mem_union, ih]
      simp

theorem closedPrefix_append {N : Cell → List Cell} :
    ∀ (comps : List (Finset Cell)) (pre newc : Finset Cell),
      ClosedPrefix N comps pre →
      (∀ x ∈ newc, ∀ d ∈ N x, d ∈ pre ∪ unionComps comps ∪ newc) →
      ClosedPrefix N (comps ++ [newc]) pre := by
  intro comps
  induction comps with
  | nil =>
      intro pre newc _ hnew
      refine ⟨?_, trivial⟩
      intro x hx d hd
      have := hnew x hx d hd
      simpa [unionComps] using this
  | cons hd tl ih =>
      intro pre newc hcp hnew
      refine ⟨hcp.1, ?_⟩
      refine ih (pre ∪ hd) newc hcp.2 ?_
      intro x hx d hd2
      have := hnew x hx d hd2
      have hrw : pre ∪ unionComps (hd :: tl) = pre ∪ hd ∪ unionComps tl := by
        show pre ∪ (hd ∪ unionComps tl) = _
        rw [Finset.union_assoc]
      rw [hrw] at this
      exact this

theorem closedPrefix_same_comp {N : Cell → List Cell}
    (hsym : ∀ c d : Cell, d ∈ N c → c ∈ N d) :
    ∀ (comps : List (Finset Cell)) (pre : Finset Cell),
      ClosedPrefix N comps pre →
      List.Pairwise Disjoint comps →
      (∀ c ∈ comps, Disjoint c pre) →
      ∀ c ∈ comps, ∀ x ∈ c, ∀ d ∈ N x, ∀ c2 ∈ comps, d ∈ c2 → c2 = c := by
  intro comps
  induction comps with
  | nil => exact fun pre _ _ _ c hc => absurd hc (List.not_mem_nil c)
  | cons c0 tl ih =>
      intro pre hcp hpw hdisj c hc x hx d hdN c2 hc2 hdc2
      have hpw' : List.Pairwise Disjoint tl := hpw.of_cons
      have hhd : ∀ c ∈ tl, Disjoint c0 c := fun c hc => (List.pairwise_cons.mp hpw).1 c hc
      have hdisj' : ∀ c ∈ tl, Disjoint c (pre ∪ c0) := by
        intro c hc
        rw [Finset.disjoint_union_right]
        exact ⟨hdisj c (List.mem_cons_of_mem c0 hc), (hhd c hc).symm⟩
      rcases List.mem_cons.mp hc with rfl | hcl
      · rcases List.mem_cons.mp hc2 with rfl | hc2l
        · rfl
        · exfalso
          have hin : d ∈ pre ∪ c := hcp.1 x hx d hdN
          have : Disjoint c2 (pre ∪ c) := hdisj' c2 hc2l
          exact Finset.disjoint_left.mp this hdc2 hin
      · rcases List.mem_cons.mp hc2 with rfl | hc2l
        · exfalso
          have hxd : x ∈ N d := hsym x d hdN
          have hin : x ∈ pre ∪ c2 := hcp.1 d hdc2 x hxd
          have : Disjoint c (pre ∪ c2) := hdisj' c hcl
          exact Finset.disjoint_left.mp this hx hin
        · exact ih (pre ∪ c0) hcp.2 hpw' hdisj' c hcl x hx d hdN c2 hc2l hdc2

theorem dfsAux_spec (kn : List Sentence) (fringe : List Cell) :
    ∀ (fuel : ℕ) (stack : List Cell) (visited comp : Finset Cell),
      (∀ c ∈ stack, c ∈ visited) → comp ⊆ visited →
      (fringe.toFinset \ visited).card + stack.length ≤ fuel →
      (dfsAux kn fringe fuel stack visited comp).1 =
          visited ∪ (dfsAux kn fringe fuel stack visited comp).2 ∧
      comp ⊆ (dfsAux kn fringe fuel stack visited comp).2 ∧
      (∀ c ∈ stack, c ∈ (dfsAux kn fringe fuel stack visited comp).2) ∧
      (dfsAux kn fringe fuel stack visited comp).2 ⊆
          comp ∪ stack.toFinset ∪ (fringe.toFinset \ visited) ∧
      (∀ x ∈ (dfsAux kn fringe fuel stack visited comp).2, x ∉ comp →
        ∀ d ∈ nbrsL kn fringe x, d ∈ (dfsAux kn fringe fuel stack visited comp).1) ∧
      visited ⊆ (dfsAux kn fringe fuel stack visited comp).1 := by
  intro fuel
  induction fuel with
  | zero =>
      intro stack visited comp hstack hcomp hfuel
      have hnil : stack = [] := List.length_eq_zero.mp (by omega)
      subst hnil
      simp only [dfsAux]
      exact ⟨(Finset.union_eq_left.mpr hcomp).symm, Finset.Subset.refl _,
        fun c hc => absurd hc (List.not_mem_nil c),
        fun x hx => Finset.mem_union_left _ (Finset.mem_union_left _ hx),
        fun x hx hxc d hd => absurd hx hxc,
        Finset.Subset.refl _⟩
  | succ n ih =>
      intro stack visited comp hstack hcomp hfuel
      cases stack with
      | nil =>
          simp only [dfsAux]
          exact ⟨(Finset.union_eq_left.mpr hcomp).symm, Finset.Subset.refl _,
            fun c hc => absurd hc (List.not_mem_nil c),
            fun x hx => Finset.mem_union_left _ (Finset.mem_union_left _ hx),
            fun x hx hxc d hd => absurd hx hxc,
            Finset.Subset.refl _⟩
      | cons curr rest =>
          obtain ⟨fresh, heq, hnd, hmem, hcompl⟩ :=
            pushNew_spec (nbrsL kn fringe curr) [] visited
          have hpush : pushNew (nbrsL kn fringe curr) visited =
              (fresh, visited ∪ fresh.toFinset) := by
            rw [pushNew, heq]
            simp
          have hstep : dfsAux kn fringe (n + 1) (curr :: rest) visited comp =
              dfsAux kn fringe n (fresh.reverse ++ rest) (visited ∪ fresh.toFinset)
                (insert curr comp) := by
            simp only [dfsAux, hpush]
          have hfr_sub : fresh.toFinset ⊆ fringe.toFinset \ visited := by
            intro x hx
            rw [List.mem_toFinset] at hx
            obtain ⟨h1, h2⟩ := hmem x hx
            exact Finset.mem_sdiff.mpr ⟨List.mem_toFinset.mpr (nbrsL_subset_fringe x h1), h2⟩
          have hcard : (fringe.toFinset \ (visited ∪ fresh.toFinset)).card =
              (fringe.toFinset \ visited).card - fresh.length := by
            have h1 : fringe.toFinset \ (visited ∪ fresh.toFinset) =
                (fringe.toFinset \ visited) \ fresh.toFinset := by
              ext x
              simp only [Finset.mem_sdiff, Finset.mem_union]
              tauto
            rw [h1, Finset.card_sdiff hfr_sub, List.toFinset_card_of_nodup hnd]
          have hflen : fresh.length ≤ (fringe.toFinset \ visited).card := by
            have := Finset.card_le_card hfr_sub
            rwa [List.toFinset_card_of_nodup hnd] at this
          have hstack' : ∀ c ∈ fresh.reverse ++ rest, c ∈ visited ∪ fresh.toFinset := by
            intro c hc
            rcases List.mem_append.mp hc with hc | hc
            · exact Finset.mem_union_right _ (List.mem_toFinset.mpr (List.mem_reverse.mp hc))
            · exact Finset.mem_union_left _ (hstack c (List.mem_cons_of_mem curr hc))
          have hcomp' : insert curr comp ⊆ visited ∪ fresh.toFinset := by
            refine Finset.insert_subset ?_ ?_
            · exact Finset.mem_union_left _ (hstack curr (List.mem_cons_self curr rest))
            · exact hcomp.trans Finset.subset_union_left
          have hfuel' : (fringe.toFinset \ (visited ∪ fresh.toFinset)).card +
              (fresh.reverse ++ rest).length ≤ n := by
            rw [hcard, List.length_append, List.length_reverse]
            simp only [List.length_cons] at hfuel
            omega
          obtain ⟨R1, R2, R3, R4, R5, R6⟩ := ih (fresh.reverse ++ rest)
            (visited ∪ fresh.toFinset) (insert curr comp) hstack' hcomp' hfuel'
          rw [hstep]
          set res := dfsAux kn fringe n (fresh.reverse ++ rest)
            (visited ∪ fresh.toFinset) (insert curr comp) with hres
          have hfset_sub : fresh.toFinset ⊆ res.2 := by
            intro x hx
            exact R3 x (List.mem_append_left rest
              (List.mem_reverse.mpr (List.mem_toFinset.mp hx)))
          have hR1 : res.1 = visited ∪ res.2 := by
            rw [R1, Finset.union_assoc,
              Finset.union_eq_right.mpr hfset_sub]
          have hres2_sub1 : res.2 ⊆ res.1 := by
            rw [hR1]
            exact Finset.subset_union_right
          refine ⟨hR1, ?_, ?_, ?_, ?_, ?_⟩
          · exact (Finset.subset_insert curr comp).trans R2
          · intro c hc
            rcases List.mem_cons.mp hc with rfl | hc
            · exact R2 (Finset.mem_insert_self c comp)
            · exact R3 c (List.mem_append_right fresh.reverse hc)
          · intro x hx
            have := R4 hx
            rcases Finset.mem_union.mp this with h | h
            · rcases Finset.mem_union.mp h with h | h
              · rcases Finset.mem_insert.mp h with rfl | h
                · exact Finset.mem_union_left _ (Finset.mem_union_right _
                    (by simp [List.mem_toFinset]))
                · exact Finset.mem_union_left _ (Finset.mem_union_left _ h)
              · rw [List.toFinset_append, List.toFinset_reverse] at h
                rcases Finset.mem_union.mp h with h | h
                · exact Finset.mem_union_right _ (hfr_sub h)
                · refine Finset.mem_union_left _ (Finset.mem_union_right _ ?_)
                  rw [List.mem_toFinset] at h ⊢
                  exact List.mem_cons_of_mem curr h
            · refine Finset.mem_union_right _ ?_
              rw [Finset.mem_sdiff] at h ⊢
              exact ⟨h.1, fun hv => h.2 (Finset.mem_union_left _ hv)⟩
          · intro x hx hxc d hd
            by_cases hxcur : x = curr
            · subst hxcur
              by_cases hdv : d ∈ visited
              · exact R6 (Finset.mem_union_left _ hdv)
              · exact hres2_sub1 (hfset_sub (List.mem_toFinset.mpr (hcompl d hd hdv)))
            · refine R5 x hx ?_ d hd
              intro hmem2
              rcases Finset.mem_insert.mp hmem2 with h | h
              · exact hxcur h
              · exact hxc h
          · exact Finset.subset_union_left.trans R6

theorem unionComps_append (l : List (Finset Cell)) (c : Finset Cell) :
    unionComps (l ++ [c]) = unionComps l ∪ c := by
  induction l with
  | nil =>
      show c ∪ ∅ = ∅ ∪ c
      rw [Finset.union_empty, Finset.empty_union]
  | cons hd tl ih =>
      show hd ∪ unionComps (tl ++ [c]) = (hd ∪ unionComps tl) ∪ c
      rw [ih, Finset.union_assoc]


theorem componentsFold_cons (kn : List Sentence) (fringe : List Cell) (cell : Cell)
    (tl : List Cell) (acc : List (Finset Cell) × Finset Cell) :
    componentsFold kn fringe (cell :: tl) acc =
      componentsFold kn fringe tl
        (if cell ∈ acc.2 then acc
         else
           ((acc.1 ++ [(dfsAux kn fringe (fringe.length + 1) [cell]
               (insert cell acc.2) ∅).2],
             (dfsAux kn fringe (fringe.length + 1) [cell] (insert cell acc.2) ∅).1))) := by
  unfold componentsFold
  rw [List.foldl_cons]

theorem getComponents_fold_spec (kn : List Sentence) (fringe : List Cell) :
    ∀ (todo : List Cell), (∀ c ∈ todo, c ∈ fringe) →
      ∀ (comps : List (Finset Cell)) (visited : Finset Cell),
      visited = unionComps comps →
      visited ⊆ fringe.toFinset →
      List.Pairwise Disjoint comps →
      ClosedPrefix (nbrsL kn fringe) comps ∅ →
      (componentsFold kn fringe todo (comps, visited)).2 =
          unionComps (componentsFold kn fringe todo (comps, visited)).1 ∧
      (componentsFold kn fringe todo (comps, visited)).2 ⊆ fringe.toFinset ∧
      List.Pairwise Disjoint (componentsFold kn fringe todo (comps, visited)).1 ∧
      ClosedPrefix (nbrsL kn fringe) (componentsFold kn fringe todo (comps, visited)).1 ∅ ∧
      visited ⊆ (componentsFold kn fringe todo (comps, visited)).2 ∧
      (∀ c ∈ todo, c ∈ (componentsFold kn fringe todo (comps, visited)).2) := by
  intro todo
  induction todo with
  | nil =>
      intro _ comps visited h1 h2 h3 h4
      exact ⟨h1, h2, h3, h4, Finset.Subset.refl _,
        fun c hc => absurd hc (List.not_mem_nil c)⟩
  | cons cell tl ih =>
      intro htodo comps visited h1 h2 h3 h4
      rw [componentsFold_cons]
      by_cases hcl : cell ∈ visited
      · rw [if_pos hcl]
        obtain ⟨g1, g2, g3, g4, g5, g6⟩ :=
          ih (fun c hc => htodo c (List.mem_cons_of_mem cell hc)) comps visited h1 h2 h3 h4
        refine ⟨g1, g2, g3, g4, g5, fun c hc => ?_⟩
        rcases List.mem_cons.mp hc with rfl | hc
        · exact g5 hcl
        · exact g6 c hc
      · rw [if_neg hcl]
        have hcellfr : cell ∈ fringe.toFinset :=
          List.mem_toFinset.mpr (htodo cell (List.mem_cons_self cell tl))
        have hfuel : (fringe.toFinset \ insert cell visited).card +
            ([cell] : List Cell).length ≤ fringe.length + 1 := by
          have h5 : (fringe.toFinset \ insert cell visited).card ≤ fringe.toFinset.card :=
            Finset.card_le_card Finset.sdiff_subset
          have h6 : fringe.toFinset.card ≤ fringe.length := fringe.toFinset_card_le
          simp only [List.length_singleton]
          omega
        obtain ⟨D1, D2, D3, D4, D5, D6⟩ := dfsAux_spec kn fringe (fringe.length + 1)
          [cell] (insert cell visited) ∅
          (fun c hc => by
            rcases List.mem_cons.mp hc with rfl | hc
            · exact Finset.mem_insert_self c visited
            · exact absurd hc (List.not_mem_nil c))
          (Finset.empty_subset _) hfuel
        set d := dfsAux kn fringe (fringe.length + 1) [cell] (insert cell visited) ∅
          with hdd
        have hcell_d : cell ∈ d.2 := D3 cell (List.mem_cons_self cell [])
        have hD1' : d.1 = visited ∪ d.2 := by
          rw [D1, Finset.insert_union,
            Finset.insert_eq_self.mpr (Finset.mem_union_right _ hcell_d)]
        have hd2_fr : d.2 ⊆ fringe.toFinset := by
          intro x hx
          rcases Finset.mem_union.mp (D4 hx) with h | h
          · rcases Finset.mem_union.mp h with h | h
            · exact absurd h (Finset.not_mem_empty x)
            · rw [List.toFinset_cons, List.toFinset_nil] at h
              rcases Finset.mem_insert.mp h with rfl | h
              · exact hcellfr
              · exact absurd h (Finset.not_mem_empty x)
          · exact (Finset.mem_sdiff.mp h).1
        have hd2_vis : Disjoint d.2 visited := by
          rw [Finset.disjoint_left]
          intro x hx hxv
          rcases Finset.mem_union.mp (D4 hx) with h | h
          · rcases Finset.mem_union.mp h with h | h
            · exact Finset.not_mem_empty x h
            · rw [List.toFinset_cons, List.toFinset_nil] at h
              rcases Finset.mem_insert.mp h with rfl | h
              · exact hcl hxv
              · exact Finset.not_mem_empty x h
          · exact (Finset.mem_sdiff.mp h).2 (Finset.mem_insert_of_mem hxv)
        have h1' : d.1 = unionComps (comps ++ [d.2]) := by
          rw [unionComps_append, hD1', h1]
        have h2' : d.1 ⊆ fringe.toFinset := by
          rw [hD1']
          exact Finset.union_subset h2 hd2_fr
        have h3' : List.Pairwise Disjoint (comps ++ [d.2]) := by
          rw [List.pairwise_append]
          refine ⟨h3, List.pairwise_singleton _ _, ?_⟩
          intro a ha b hb
          rw [List.mem_singleton] at hb
          subst hb
          have ha' : a ⊆ visited := by
            rw [h1]
            intro x hx
            exact mem_unionComps.mpr ⟨a, ha, hx⟩
          exact Finset.disjoint_left.mpr
            (fun x hx hxb => Finset.disjoint_left.mp hd2_vis hxb (ha' hx))
        have h4' : ClosedPrefix (nbrsL kn fringe) (comps ++ [d.2]) ∅ := by
          refine closedPrefix_append comps ∅ d.2 h4 ?_
          intro x hx n hn
          have hnp := D5 x hx (Finset.not_mem_empty x) n hn
          rw [hD1'] at hnp
          rw [Finset.empty_union, ← h1]
          exact hnp
        obtain ⟨g1, g2, g3, g4, g5, g6⟩ :=
          ih (fun c hc => htodo c (List.mem_cons_of_mem cell hc)) (comps ++ [d.2]) d.1
            h1' h2' h3' h4'
        refine ⟨g1, g2, g3, g4, ?_, ?_⟩
        · refine Finset.Subset.trans ?_ g5
          rw [hD1']
          exact Finset.subset_union_left
        · intro c hc
          rcases List.mem_cons.mp hc with rfl | hc
          · refine g5 ?_
            rw [hD1']
            exact Finset.mem_union_right _ hcell_d
          · exact g6 c hc

theorem mem_foldl_union (x : Cell) :
    ∀ (kn : List Sentence) (F : Finset Cell),
      x ∈ kn.foldl (fun F t => F ∪ t.cells) F ↔ x ∈ F ∨ ∃ t ∈ kn, x ∈ t.cells := by
  intro kn
  induction kn with
  | nil => simp
  | cons hd tl ih =>
      intro F
      rw [List.foldl_cons, ih, Finset.mem_union]
      constructor
      · rintro ((h | h) | ⟨t, ht, hx⟩)
        · exact Or.inl h
        · exact Or.inr ⟨hd, List.mem_cons_self hd tl, h⟩
        · exact Or.inr ⟨t, List.mem_cons_of_mem hd ht, hx⟩
      · rintro (h | ⟨t, ht, hx⟩)
        · exact Or.inl (Or.inl h)
        · rcases List.mem_cons.mp ht with rfl | ht
          · exact Or.inl (Or.inr hx)
          · exact Or.inr ⟨t, ht, hx⟩

theorem mem_fringeList {kn : List Sentence} {x : Cell} :
    x ∈ fringeList kn ↔ ∃ t ∈ kn, x ∈ t.cells := by
  unfold fringeList
  rw [mem_sortCells, mem_foldl_union]
  simp

theorem pairwise_disjoint_mem_eq {l : List (Finset Cell)} (hpw : List.Pairwise Disjoint l)
    {c1 c2 : Finset Cell} (h1 : c1 ∈ l) (h2 : c2 ∈ l) {x : Cell}
    (hx1 : x ∈ c1) (hx2 : x ∈ c2) : c1 = c2 := by
  by_contra hne
  have hdisj : Disjoint c1 c2 :=
    List.Pairwise.forall (fun a b h => h.symm) hpw h1 h2 hne
  exact Finset.disjoint_left.mp hdisj hx1 hx2

/-- C7: the frontier decomposition is a true partition: the fringe is
exactly the set of cells referenced by a sentence; every such cell lies in
exactly one returned component; components are pairwise disjoint; and every
(non-empty) sentence's cell set lies entirely within exactly one
component. -/
theorem frontier_partition (kn : List Sentence) :
    (∀ x : Cell, x ∈ fringeList kn ↔ ∃ t ∈ kn, x ∈ t.cells) ∧
    (∀ x : Cell, (∃ t ∈ kn, x ∈ t.cells) →
      ∃! c : Finset Cell, c ∈ getComponents kn (fringeList kn) ∧ x ∈ c) ∧
    List.Pairwise Disjoint (getComponents kn (fringeList kn)) ∧
    (∀ t ∈ kn, t.cells ≠ ∅ →
      ∃! c : Finset Cell, c ∈ getComponents kn (fringeList kn) ∧ t.cells ⊆ c) := by
  obtain ⟨g1, g2, g3, g4, g5, g6⟩ := getComponents_fold_spec kn (fringeList kn)
    (fringeList kn) (fun c hc => hc) [] ∅ rfl (Finset.empty_subset _)
    List.Pairwise.nil trivial
  have hgc : getComponents kn (fringeList kn) =
      (componentsFold kn (fringeList kn) (fringeList kn) ([], ∅)).1 := rfl
  have hcover : ∀ x : Cell, x ∈ fringeList kn →
      ∃ c ∈ getComponents kn (fringeList kn), x ∈ c := by
    intro x hx
    have := g6 x hx
    rw [g1] at this
    rw [hgc]
    exact mem_unionComps.mp this
  refine ⟨fun x => mem_fringeList, ?_, ?_, ?_⟩
  · intro x hx
    obtain ⟨c, hc, hxc⟩ := hcover x (mem_fringeList.mpr hx)
    exact ⟨c, ⟨hc, hxc⟩, fun c2 hc2 =>
      pairwise_disjoint_mem_eq (hgc ▸ g3) hc2.1 hc hc2.2 hxc⟩
  · exact hgc ▸ g3
  · intro t ht hne
    obtain ⟨c0, hc0⟩ := Finset.nonempty_iff_ne_empty.mpr hne
    obtain ⟨C, hC, hc0C⟩ := hcover c0 (mem_fringeList.mpr ⟨t, ht, hc0⟩)
    have hsub : t.cells ⊆ C := by
      intro d hd
      by_cases hdc : d = c0
      · subst hdc
        exact hc0C
      · have hnbr : d ∈ nbrsL kn (fringeList kn) c0 :=
          mem_nbrsL.mpr ⟨mem_fringeList.mpr ⟨t, ht, hc0⟩,
            mem_fringeList.mpr ⟨t, ht, hd⟩, hdc, t, ht, hc0, hd⟩
        obtain ⟨C2, hC2, hdC2⟩ := hcover d (mem_fringeList.mpr ⟨t, ht, hd⟩)
        have : C2 = C := closedPrefix_same_comp (fun c d h => nbrsL_symm h)
          (getComponents kn (fringeList kn)) ∅ (hgc ▸ g4) (hgc ▸ g3)
          (fun c _ => Finset.disjoint_empty_right c) C hC c0 hc0C d hnbr C2 hC2 hdC2
        exact this ▸ hdC2
    refine ⟨C, ⟨hC, hsub⟩, ?_⟩
    intro c2 hc2
    exact pairwise_disjoint_mem_eq (hgc ▸ g3) hc2.1 hC (hc2.2 hc0) hc0C

/-- Witness for C7 at scenario A's knowledge list. -/
theorem frontier_partition_witness :
    (∃ t ∈ knScenA, ((0:ℤ),(0:ℤ)) ∈ t.cells) ∧
    (∃! c : Finset Cell, c ∈ getComponents knScenA (fringeList knScenA) ∧
      ((0:ℤ),(0:ℤ)) ∈ c) ∧
    (∃! c : Finset Cell, c ∈ getComponents knScenA (fringeList knScenA) ∧
      (⟨{((0:ℤ),(0:ℤ)), ((0:ℤ),(1:ℤ))}, 1⟩ : Sentence).cells ⊆ c) := by
  have h1 : ∃ t ∈ knScenA, ((0:ℤ),(0:ℤ)) ∈ t.cells := by decide
  refine ⟨h1, (frontier_partition knScenA).2.1 ((0:ℤ),(0:ℤ)) h1, ?_⟩
  exact (frontier_partition knScenA).2.2.2 ⟨{((0:ℤ),(0:ℤ)), ((0:ℤ),(1:ℤ))}, 1⟩
    (by decide) (by decide)

/-!
## Claim C2 lemmas
-/

theorem mem_sentenceUniverse {grid : Finset Cell} {t : Sentence} :
    t ∈ sentenceUniverse grid ↔
      t.cells ⊆ grid ∧ 0 ≤ t.count ∧ t.count ≤ (t.cells.card : ℤ) := by
  unfold sentenceUniverse
  rw [Finset.mem_biUnion]
  constructor
  · rintro ⟨S, hS, ht⟩
    rw [Finset.mem_image] at ht
    obtain ⟨k, hk, rfl⟩ := ht
    rw [Finset.mem_range] at hk
    rw [Finset.mem_powerset] at hS
    refine ⟨hS, by positivity, ?_⟩
    show ((k : ℤ)) ≤ _
    exact_mod_cast Nat.lt_succ_iff.mp hk
  · rintro ⟨hsub, h0, hle⟩
    refine ⟨t.cells, Finset.mem_powerset.mpr hsub, ?_⟩
    rw [Finset.mem_image]
    refine ⟨t.count.toNat, ?_, ?_⟩
    · rw [Finset.mem_range, Nat.lt_succ_iff]
      omega
    · have : ((t.count.toNat : ℤ)) = t.count := Int.toNat_of_nonneg h0
      calc (⟨t.cells, (t.count.toNat : ℤ)⟩ : Sentence) = ⟨t.cells, t.count⟩ := by rw [this]
        _ = t := rfl

theorem mem_collectSafes {x : Cell} :
    ∀ (kn : List Sentence), x ∈ collectSafes kn ↔ ∃ t ∈ kn, t.count = 0 ∧ x ∈ t.cells := by
  have haux : ∀ (kn : List Sentence) (F : Finset Cell),
      x ∈ kn.foldl (fun acc t => acc ∪ t.known_safes) F ↔
        x ∈ F ∨ ∃ t ∈ kn, t.count = 0 ∧ x ∈ t.cells := by
    intro kn
    induction kn with
    | nil => simp
    | cons hd tl ih =>
        intro F
        rw [List.foldl_cons, ih, Finset.mem_union]
        unfold Sentence.known_safes
        constructor
        · rintro ((h | h) | ⟨t, ht, h0, hx⟩)
          · exact Or.inl h
          · split at h
            · exact Or.inr ⟨hd, List.mem_cons_self hd tl, by assumption, h⟩
            · exact absurd h (Finset.not_mem_empty x)
          · exact Or.inr ⟨t, List.mem_cons_of_mem hd ht, h0, hx⟩
        · rintro (h | ⟨t, ht, h0, hx⟩)
          · exact Or.inl (Or.inl h)
          · rcases List.mem_cons.mp ht with rfl | ht
            · refine Or.inl (Or.inr ?_)
              rw [if_pos h0]
              exact hx
            · exact Or.inr ⟨t, ht, h0, hx⟩
  intro kn
  rw [collectSafes, haux]
  simp

theorem mem_collectMines {x : Cell} :
    ∀ (kn : List Sentence), x ∈ collectMines kn ↔
      ∃ t ∈ kn, ((t.cells.card : ℤ) = t.count ∧ 0 < t.count) ∧ x ∈ t.cells := by
  have haux : ∀ (kn : List Sentence) (F : Finset Cell),
      x ∈ kn.foldl (fun acc t => acc ∪ t.known_mines) F ↔
        x ∈ F ∨ ∃ t ∈ kn, ((t.cells.card : ℤ) = t.count ∧ 0 < t.count) ∧ x ∈ t.cells := by
    intro kn
    induction kn with
    | nil => simp
    | cons hd tl ih =>
        intro F
        rw [List.foldl_cons, ih, Finset.mem_union]
        unfold Sentence.known_mines
        constructor
        · rintro ((h | h) | ⟨t, ht, hc, hx⟩)
          · exact Or.inl h
          · split at h
            · exact Or.inr ⟨hd, List.mem_cons_self hd tl, by assumption, h⟩
            · exact absurd h (Finset.not_mem_empty x)
          · exact Or.inr ⟨t, List.mem_cons_of_mem hd ht, hc, hx⟩
        · rintro (h | ⟨t, ht, hc, hx⟩)
          · exact Or.inl (Or.inl h)
          · rcases List.mem_cons.mp ht with rfl | ht
            · refine Or.inl (Or.inr ?_)
              rw [if_pos hc]
              exact hx
            · exact Or.inr ⟨t, ht, hc, hx⟩
  intro kn
  rw [collectMines, haux]
  simp

theorem collectSafes_correct {grid : Finset Cell} {μ : Cell → Bool} {s : KB}
    (hs : SoundState grid μ s) : ∀ x ∈ collectSafes s.knowledge, μ x = false := by
  intro x hx
  obtain ⟨t, ht, h0, hxc⟩ := (mem_collectSafes s.knowledge).mp hx
  have he := hs.exact_counts t ht
  unfold Sentence.exactFor at he
  have hcard : (t.cells.filter (fun c => μ c)).card = 0 := by omega
  cases hmx : μ x
  · rfl
  · exfalso
    have hmem : x ∈ t.cells.filter (fun c => μ c) :=
      Finset.mem_filter.mpr ⟨hxc, hmx⟩
    rw [Finset.card_eq_zero.mp hcard] at hmem
    exact Finset.not_mem_empty x hmem

theorem collectMines_correct {grid : Finset Cell} {μ : Cell → Bool} {s : KB}
    (hs : SoundState grid μ s) : ∀ x ∈ collectMines s.knowledge, μ x = true := by
  intro x hx
  obtain ⟨t, ht, ⟨hc, _⟩, hxc⟩ := (mem_collectMines s.knowledge).mp hx
  have he := hs.exact_counts t ht
  unfold Sentence.exactFor at he
  have hcard : (t.cells.filter (fun c => μ c)).card = t.cells.card := by omega
  have hfull : t.cells.filter (fun c => μ c) = t.cells :=
    Finset.eq_of_subset_of_card_le (Finset.filter_subset _ _) (le_of_eq hcard.symm)
  have : x ∈ t.cells.filter (fun c => μ c) := hfull.symm ▸ hxc
  exact (Finset.mem_filter.mp this).2

theorem sound_kbMarkSafeSet {grid : Finset Cell} {μ : Cell → Bool} {s : KB}
    {X : Finset Cell} (hs : SoundState grid μ s) (hX : ∀ x ∈ X, μ x = false) :
    SoundState grid μ (kbMarkSafeSet s X) := by
  unfold kbMarkSafeSet
  constructor
  · intro t ht
    obtain ⟨u, hu, rfl⟩ := List.mem_map.mp ht
    exact Finset.Subset.trans (Finset.sdiff_subset) (hs.mem_grid u hu)
  · intro t ht
    obtain ⟨u, hu, rfl⟩ := List.mem_map.mp ht
    have he := hs.exact_counts u hu
    unfold Sentence.exactFor at he ⊢
    unfold Sentence.removeSafe
    dsimp only
    have hfe : (u.cells \ (X \ s.safes)).filter (fun c => μ c) =
        u.cells.filter (fun c => μ c) := by
      ext c
      simp only [Finset.mem_filter, Finset.mem_sdiff]
      constructor
      · rintro ⟨⟨h1, _⟩, h2⟩
        exact ⟨h1, h2⟩
      · rintro ⟨h1, h2⟩
        refine ⟨⟨h1, fun hcx => ?_⟩, h2⟩
        rw [hX c hcx.1] at h2
        exact Bool.false_ne_true h2
    rw [hfe]
    exact he
  · intro t ht
    obtain ⟨u, hu, rfl⟩ := List.mem_map.mp ht
    intro c hc
    unfold Sentence.removeSafe at hc
    dsimp only at hc
    rw [Finset.mem_sdiff] at hc
    obtain ⟨hcu, hcx⟩ := hc
    obtain ⟨hns, hnm⟩ := hs.cells_fresh u hu c hcu
    dsimp only
    rw [Finset.mem_union]
    refine ⟨fun h => ?_, hnm⟩
    rcases h with h | h
    · exact hns h
    · exact hcx (Finset.mem_sdiff.mpr ⟨h, hns⟩)
  · intro c hc
    rcases Finset.mem_union.mp hc with h | h
    · exact hs.safes_correct c h
    · exact hX c h
  · exact hs.mines_correct

theorem sound_kbMarkMineSet {grid : Finset Cell} {μ : Cell → Bool} {s : KB}
    {X : Finset Cell} (hs : SoundState grid μ s) (hX : ∀ x ∈ X, μ x = true) :
    SoundState grid μ (kbMarkMineSet s X) := by
  unfold kbMarkMineSet
  constructor
  · intro t ht
    obtain ⟨u, hu, rfl⟩ := List.mem_map.mp ht
    exact Finset.Subset.trans (Finset.sdiff_subset) (hs.mem_grid u hu)
  · intro t ht
    obtain ⟨u, hu, rfl⟩ := List.mem_map.mp ht
    have he := hs.exact_counts u hu
    unfold Sentence.exactFor at he ⊢
    unfold Sentence.removeMine
    dsimp only
    have hfe : (u.cells \ (X \ s.mines)).filter (fun c => μ c) =
        u.cells.filter (fun c => μ c) \ (X \ s.mines) := by
      ext c
      simp only [Finset.mem_filter, Finset.mem_sdiff]
      tauto
    have hie : u.cells.filter (fun c => μ c) ∩ (X \ s.mines) =
        u.cells ∩ (X \ s.mines) := by
      ext c
      simp only [Finset.mem_filter, Finset.mem_inter, Finset.mem_sdiff]
      constructor
      · rintro ⟨⟨h1, _⟩, h2⟩
        exact ⟨h1, h2⟩
      · rintro ⟨h1, h2⟩
        exact ⟨⟨h1, hX c h2.1⟩, h2⟩
    have hsd : u.cells.filter (fun c => μ c) \ (X \ s.mines) =
        u.cells.filter (fun c => μ c) \ (u.cells.filter (fun c => μ c) ∩ (X \ s.mines)) := by
      ext c
      simp only [Finset.mem_sdiff, Finset.mem_inter]
      tauto
    have hcard := Finset.card_sdiff
      (show u.cells.filter (fun c => μ c) ∩ (X \ s.mines) ⊆
          u.cells.filter (fun c => μ c) from Finset.inter_subset_left)
    rw [hfe, hsd, hcard, hie]
    have hle : (u.cells ∩ (X \ s.mines)).card ≤ (u.cells.filter (fun c => μ c)).card := by
      rw [← hie]
      exact Finset.card_le_card Finset.inter_subset_left
    omega
  · intro t ht
    obtain ⟨u, hu, rfl⟩ := List.mem_map.mp ht
    intro c hc
    unfold Sentence.removeMine at hc
    dsimp only at hc
    rw [Finset.mem_sdiff] at hc
    obtain ⟨hcu, hcx⟩ := hc
    obtain ⟨hns, hnm⟩ := hs.cells_fresh u hu c hcu
    dsimp only
    rw [Finset.mem_union]
    refine ⟨hns, fun h => ?_⟩
    rcases h with h | h
    · exact hnm h
    · exact hcx (Finset.mem_sdiff.mpr ⟨h, hnm⟩)
  · exact hs.safes_correct
  · intro c hc
    rcases Finset.mem_union.mp hc with h | h
    · exact hs.mines_correct c h
    · exact hX c h

theorem deriveStep_sub (full : List Sentence) (s1 : Sentence) (acc : List Sentence)
    (s2 : Sentence) :
    deriveStep full s1 acc s2 = acc ∨
      (s1.cells ⊆ s2.cells ∧ s2.cells \ s1.cells ≠ ∅ ∧
        (⟨s2.cells \ s1.cells, s2.count - s1.count⟩ : Sentence) ∉ full ∧
        deriveStep full s1 acc s2 =
          acc ++ [⟨s2.cells \ s1.cells, s2.count - s1.count⟩]) := by
  unfold deriveStep
  split_ifs with h1 h2 h3 h4
  · exact Or.inl rfl
  · exact Or.inr ⟨h2, h3, h4.1, rfl⟩
  · exact Or.inl rfl
  · exact Or.inl rfl
  · exact Or.inl rfl

theorem mem_foldl_deriveStep_src (full : List Sentence) (s1 : Sentence) :
    ∀ (todo acc : List Sentence) (x : Sentence),
      x ∈ todo.foldl (deriveStep full s1) acc →
      x ∈ acc ∨ ∃ s2 ∈ todo, s1.cells ⊆ s2.cells ∧ s2.cells \ s1.cells ≠ ∅ ∧
        x ∉ full ∧ x = ⟨s2.cells \ s1.cells, s2.count - s1.count⟩ := by
  intro todo
  induction todo with
  | nil => exact fun acc x hx => Or.inl hx
  | cons hd tl ih =>
      intro acc x hx
      rw [List.foldl_cons] at hx
      rcases ih (deriveStep full s1 acc hd) x hx with h | ⟨s2, hs2, h1, h2, h3, h4⟩
      · rcases deriveStep_sub full s1 acc hd with he | ⟨g1, g2, g3, he⟩
        · rw [he] at h
          exact Or.inl h
        · rw [he] at h
          rcases List.mem_append.mp h with h | h
          · exact Or.inl h
          · rw [List.mem_singleton] at h
            subst h
            exact Or.inr ⟨hd, List.mem_cons_self hd tl, g1, g2, g3, rfl⟩
      · exact Or.inr ⟨s2, List.mem_cons_of_mem hd hs2, h1, h2, h3, h4⟩

theorem mem_subsetDerive_src (kn : List Sentence) :
    ∀ (todo acc : List Sentence) (x : Sentence),
      x ∈ todo.foldl (fun acc s1 => kn.foldl (deriveStep kn s1) acc) acc →
      x ∈ acc ∨ ∃ s1 ∈ todo, ∃ s2 ∈ kn, s1.cells ⊆ s2.cells ∧
        s2.cells \ s1.cells ≠ ∅ ∧ x ∉ kn ∧
        x = ⟨s2.cells \ s1.cells, s2.count - s1.count⟩ := by
  intro todo
  induction todo with
  | nil => exact fun acc x hx => Or.inl hx
  | cons hd tl ih =>
      intro acc x hx
      rw [List.foldl_cons] at hx
      rcases ih (kn.foldl (deriveStep kn hd) acc) x hx with h | ⟨s1, hs1, rest⟩
      · rcases mem_foldl_deriveStep_src kn hd kn acc x h with h | ⟨s2, hs2, h1, h2, h3, h4⟩
        · exact Or.inl h
        · exact Or.inr ⟨hd, List.mem_cons_self hd tl, s2, hs2, h1, h2, h3, h4⟩
      · exact Or.inr ⟨s1, List.mem_cons_of_mem hd hs1, rest⟩

theorem subsetDerive_src {kn : List Sentence} {x : Sentence} (hx : x ∈ subsetDerive kn) :
    ∃ s1 ∈ kn, ∃ s2 ∈ kn, s1.cells ⊆ s2.cells ∧ s2.cells \ s1.cells ≠ ∅ ∧
      x ∉ kn ∧ x = ⟨s2.cells \ s1.cells, s2.count - s1.count⟩ := by
  rcases mem_subsetDerive_src kn kn [] x hx with h | h
  · exact absurd h (List.not_mem_nil x)
  · exact h

theorem exactFor_diff {μ : Cell → Bool} {s1 s2 : Sentence} (h1 : s1.exactFor μ)
    (h2 : s2.exactFor μ) (hsub : s1.cells ⊆ s2.cells) :
    Sentence.exactFor μ ⟨s2.cells \ s1.cells, s2.count - s1.count⟩ := by
  unfold Sentence.exactFor at h1 h2 ⊢
  dsimp only
  have hfe : (s2.cells \ s1.cells).filter (fun c => μ c) =
      s2.cells.filter (fun c => μ c) \ s1.cells.filter (fun c => μ c) := by
    ext c
    simp only [Finset.mem_filter, Finset.mem_sdiff]
    constructor
    · rintro ⟨⟨ha, hb⟩, hm⟩
      exact ⟨⟨ha, hm⟩, fun hc => hb hc.1⟩
    · rintro ⟨⟨ha, hm⟩, hb⟩
      exact ⟨⟨ha, fun hc => hb ⟨hc, hm⟩⟩, hm⟩
  have hle : (s1.cells.filter (fun c => μ c)).card ≤
      (s2.cells.filter (fun c => μ c)).card :=
    Finset.card_le_card (Finset.filter_subset_filter _ hsub)
  rw [hfe, Finset.card_sdiff (Finset.filter_subset_filter _ hsub)]
  omega

theorem sound_filter_knowledge {grid : Finset Cell} {μ : Cell → Bool} {s : KB}
    (hs : SoundState grid μ s) (P : Sentence → Bool) :
    SoundState grid μ { s with knowledge := s.knowledge.filter P } := by
  constructor
  · exact fun t ht => hs.mem_grid t (List.mem_of_mem_filter ht)
  · exact fun t ht => hs.exact_counts t (List.mem_of_mem_filter ht)
  · exact fun t ht => hs.cells_fresh t (List.mem_of_mem_filter ht)
  · exact hs.safes_correct
  · exact hs.mines_correct

theorem sound_inferStep {grid : Finset Cell} {μ : Cell → Bool} {s : KB}
    (hs : SoundState grid μ s) : SoundState grid μ (inferStep s).1 := by
  have hA : SoundState grid μ (kbMarkSafeSet s (collectSafes s.knowledge)) :=
    sound_kbMarkSafeSet hs (collectSafes_correct hs)
  have hB : SoundState grid μ (kbMarkMineSet (kbMarkSafeSet s (collectSafes s.knowledge))
      (collectMines s.knowledge)) :=
    sound_kbMarkMineSet hA (collectMines_correct hs)
  set sM := kbMarkMineSet (kbMarkSafeSet s (collectSafes s.knowledge))
    (collectMines s.knowledge) with hsM
  have hC : SoundState grid μ
      { sM with knowledge := sM.knowledge.filter (fun t => decide (t.cells ≠ ∅)) } :=
    sound_filter_knowledge hB _
  set kn2 := sM.knowledge.filter (fun t => decide (t.cells ≠ ∅)) with hkn2
  show SoundState grid μ ⟨sM.movesMade, sM.mines, sM.safes, kn2 ++ subsetDerive kn2⟩
  constructor
  · intro t ht
    rcases List.mem_append.mp ht with h | h
    · exact hC.mem_grid t h
    · obtain ⟨u1, hu1, u2, hu2, hsub, hne, hni, rfl⟩ := subsetDerive_src h
      exact Finset.Subset.trans Finset.sdiff_subset (hC.mem_grid u2 hu2)
  · intro t ht
    rcases List.mem_append.mp ht with h | h
    · exact hC.exact_counts t h
    · obtain ⟨u1, hu1, u2, hu2, hsub, hne, hni, rfl⟩ := subsetDerive_src h
      exact exactFor_diff (hC.exact_counts u1 hu1) (hC.exact_counts u2 hu2) hsub
  · intro t ht
    rcases List.mem_append.mp ht with h | h
    · exact hC.cells_fresh t h
    · obtain ⟨u1, hu1, u2, hu2, hsub, hne, hni, rfl⟩ := subsetDerive_src h
      intro c hc
      exact hC.cells_fresh u2 hu2 c (Finset.mem_sdiff.mp hc).1
  · exact hC.safes_correct
  · exact hC.mines_correct

theorem kbMarkSafeSet_empty (s : KB) : kbMarkSafeSet s ∅ = s := by
  unfold kbMarkSafeSet
  have h : s.knowledge.map (fun t => t.removeSafe (∅ \ s.safes)) = s.knowledge := by
    conv_rhs => rw [← List.map_id s.knowledge]
    refine List.map_congr_left fun t _ => ?_
    unfold Sentence.removeSafe
    rw [Finset.empty_sdiff, Finset.sdiff_empty]
    rfl
  rw [h, Finset.union_empty]

theorem kbMarkMineSet_empty (s : KB) : kbMarkMineSet s ∅ = s := by
  unfold kbMarkMineSet
  have h : s.knowledge.map (fun t => t.removeMine (∅ \ s.mines)) = s.knowledge := by
    conv_rhs => rw [← List.map_id s.knowledge]
    refine List.map_congr_left fun t _ => ?_
    unfold Sentence.removeMine
    rw [Finset.empty_sdiff, Finset.sdiff_empty, Finset.inter_empty, Finset.card_empty]
    simp
  rw [h, Finset.union_empty]

theorem sdiff_union_card_lt {grid S X : Finset Cell} (hXg : X ⊆ grid)
    (hXS : ∀ x ∈ X, x ∉ S) (hne : X ≠ ∅) :
    (grid \ (S ∪ X)).card < (grid \ S).card := by
  obtain ⟨x, hx⟩ := Finset.nonempty_iff_ne_empty.mpr hne
  refine Finset.card_lt_card (Finset.ssubset_iff_of_subset ?_ |>.mpr ?_)
  · exact Finset.sdiff_subset_sdiff (Finset.Subset.refl grid) Finset.subset_union_left
  · refine ⟨x, Finset.mem_sdiff.mpr ⟨hXg hx, hXS x hx⟩, fun hc => ?_⟩
    exact (Finset.mem_sdiff.mp hc).2 (Finset.mem_union_right S hx)

theorem collectSafes_subset_grid {grid : Finset Cell} {μ : Cell → Bool} {s : KB}
    (hs : SoundState grid μ s) : collectSafes s.knowledge ⊆ grid := by
  intro x hx
  obtain ⟨t, ht, _, hxc⟩ := (mem_collectSafes s.knowledge).mp hx
  exact hs.mem_grid t ht hxc

theorem collectMines_subset_grid {grid : Finset Cell} {μ : Cell → Bool} {s : KB}
    (hs : SoundState grid μ s) : collectMines s.knowledge ⊆ grid := by
  intro x hx
  obtain ⟨t, ht, _, hxc⟩ := (mem_collectMines s.knowledge).mp hx
  exact hs.mem_grid t ht hxc

theorem collectSafes_fresh {grid : Finset Cell} {μ : Cell → Bool} {s : KB}
    (hs : SoundState grid μ s) : ∀ x ∈ collectSafes s.knowledge, x ∉ s.safes := by
  intro x hx
  obtain ⟨t, ht, _, hxc⟩ := (mem_collectSafes s.knowledge).mp hx
  exact (hs.cells_fresh t ht x hxc).1

theorem collectMines_fresh {grid : Finset Cell} {μ : Cell → Bool} {s : KB}
    (hs : SoundState grid μ s) : ∀ x ∈ collectMines s.knowledge, x ∉ s.mines := by
  intro x hx
  obtain ⟨t, ht, _, hxc⟩ := (mem_collectMines s.knowledge).mp hx
  exact (hs.cells_fresh t ht x hxc).2

theorem missing_le_universe (grid : Finset Cell) (s : KB) :
    ((sentenceUniverse grid).filter (fun t => t.cells ≠ ∅ ∧ t ∉ s.knowledge)).card ≤
      (sentenceUniverse grid).card :=
  Finset.card_le_card (Finset.filter_subset _ _)

theorem measure_decreases {grid : Finset Cell} {μ : Cell → Bool} {s : KB}
    (hs : SoundState grid μ s) (hch : (inferStep s).2 = true) :
    kbMeasure grid (inferStep s).1 < kbMeasure grid s := by
  set toSafe := collectSafes s.knowledge with hts
  set toMine := collectMines s.knowledge with htm
  set sM := kbMarkMineSet (kbMarkSafeSet s toSafe) toMine with hsm
  set kn2 := sM.knowledge.filter (fun t => decide (t.cells ≠ ∅)) with hkn2
  have hfst : (inferStep s).1 =
      ⟨sM.movesMade, sM.mines, sM.safes, kn2 ++ subsetDerive kn2⟩ := rfl
  have hsnd : (inferStep s).2 =
      (decide ¬(toSafe = ∅ ∧ toMine = ∅) || !(subsetDerive kn2).isEmpty) := rfl
  have hsafesM : sM.safes = s.safes ∪ toSafe := rfl
  have hminesM : sM.mines = s.mines ∪ toMine := rfl
  by_cases hm : toSafe = ∅ ∧ toMine = ∅
  · obtain ⟨hm1, hm2⟩ := hm
    have hseq : sM = s := by
      rw [hsm, hm1, hm2, kbMarkSafeSet_empty, kbMarkMineSet_empty]
    rw [hseq] at hkn2
    have hder : subsetDerive kn2 ≠ [] := by
      intro hnil
      rw [hsnd, hm1, hm2, hnil] at hch
      simp at hch
    obtain ⟨d, hd⟩ := List.exists_mem_of_ne_nil _ hder
    obtain ⟨u1, hu1, u2, hu2, hsub, hdne, hdnotin, hdeq⟩ := subsetDerive_src hd
    have hu1' : u1 ∈ s.knowledge := by
      rw [hkn2] at hu1
      exact List.mem_of_mem_filter hu1
    have hu2' : u2 ∈ s.knowledge := by
      rw [hkn2] at hu2
      exact List.mem_of_mem_filter hu2
    have hdexact : d.exactFor μ := by
      rw [hdeq]
      exact exactFor_diff (hs.exact_counts u1 hu1') (hs.exact_counts u2 hu2') hsub
    have hdU : d ∈ sentenceUniverse grid := by
      rw [mem_sentenceUniverse]
      refine ⟨?_, (exactFor_bounds hdexact).1, (exactFor_bounds hdexact).2⟩
      rw [hdeq]
      exact Finset.Subset.trans Finset.sdiff_subset (hs.mem_grid u2 hu2')
    have hdcells : d.cells ≠ ∅ := by
      rw [hdeq]
      exact hdne
    have hdnew : d ∉ s.knowledge := by
      intro hmem
      refine hdnotin ?_
      rw [hkn2]
      exact List.mem_filter.mpr ⟨hmem, by simpa using hdcells⟩
    have hknmem : ∀ t : Sentence, t.cells ≠ ∅ → (t ∈ kn2 ↔ t ∈ s.knowledge) := by
      intro t htne
      rw [hkn2]
      constructor
      · exact List.mem_of_mem_filter
      · intro hmem
        exact List.mem_filter.mpr ⟨hmem, by simpa using htne⟩
    have hss : (sentenceUniverse grid).filter
        (fun t => t.cells ≠ ∅ ∧ t ∉ (kn2 ++ subsetDerive kn2)) ⊂
        (sentenceUniverse grid).filter (fun t => t.cells ≠ ∅ ∧ t ∉ s.knowledge) := by
      refine Finset.ssubset_iff_of_subset ?_ |>.mpr ?_
      · intro t ht
        rw [Finset.mem_filter] at ht ⊢
        obtain ⟨htu, htne, htnm⟩ := ht
        refine ⟨htu, htne, fun hmem => htnm ?_⟩
        exact List.mem_append_left _ ((hknmem t htne).mpr hmem)
      · refine ⟨d, ?_, ?_⟩
        · rw [Finset.mem_filter]
          exact ⟨hdU, hdcells, hdnew⟩
        · rw [Finset.mem_filter]
          push_neg
          intro _ _
          exact List.mem_append_right _ hd
    have hcards := Finset.card_lt_card hss
    rw [hfst]
    unfold kbMeasure
    dsimp only
    rw [hseq]
    omega
  · have hterm1 : (grid \ sM.safes).card + (grid \ sM.mines).card <
        (grid \ s.safes).card + (grid \ s.mines).card := by
      rw [hsafesM, hminesM]
      rcases not_and_or.mp hm with h | h
      · have hstrict := sdiff_union_card_lt (collectSafes_subset_grid hs)
          (collectSafes_fresh hs) h
        rw [← hts] at hstrict
        have hle : (grid \ (s.mines ∪ toMine)).card ≤ (grid \ s.mines).card :=
          Finset.card_le_card
            (Finset.sdiff_subset_sdiff (Finset.Subset.refl grid) Finset.subset_union_left)
        omega
      · have hstrict := sdiff_union_card_lt (collectMines_subset_grid hs)
          (collectMines_fresh hs) h
        rw [← htm] at hstrict
        have hle : (grid \ (s.safes ∪ toSafe)).card ≤ (grid \ s.safes).card :=
          Finset.card_le_card
            (Finset.sdiff_subset_sdiff (Finset.Subset.refl grid) Finset.subset_union_left)
        omega
    rw [hfst]
    unfold kbMeasure
    dsimp only
    have hm2le : ((sentenceUniverse grid).filter
        (fun t => t.cells ≠ ∅ ∧ t ∉ (kn2 ++ subsetDerive kn2))).card ≤
          (sentenceUniverse grid).card :=
      Finset.card_le_card (Finset.filter_subset _ _)
    set U := (sentenceUniverse grid).card with hU
    set a2 := (grid \ sM.safes).card + (grid \ sM.mines).card with ha2
    set a1 := (grid \ s.safes).card + (grid \ s.mines).card with ha1
    set m2 := ((sentenceUniverse grid).filter
      (fun t => t.cells ≠ ∅ ∧ t ∉ (kn2 ++ subsetDerive kn2))).card with hm2
    calc a2 * (U + 1) + m2 < a2 * (U + 1) + (U + 1) := by omega
      _ = (a2 + 1) * (U + 1) := by ring
      _ ≤ a1 * (U + 1) := Nat.mul_le_mul_right _ (by omega)
      _ ≤ a1 * (U + 1) + ((sentenceUniverse grid).filter
          (fun t => t.cells ≠ ∅ ∧ t ∉ s.knowledge)).card := Nat.le_add_right _ _

/-- C2: on every sound knowledge-base state — soundness w.r.t. the true
mine layout `μ` holds for the initial state and is preserved by every
operation on truthfully-reported boards (`sound_inferStep`), so it covers
every reachable state over a finite grid — the `while changes:` loop of
`infer_knowledge` terminates: after finitely many passes a full pass
reports no change (no new facts, no new sentences).  The proof descends on
`kbMeasure`: a changed pass either records a brand-new safe/mine fact
(bounded by the grid) or adds a sentence from the finite universe of
invariant-satisfying sentences that was not present before. -/
theorem infer_terminates (grid : Finset Cell) (μ : Cell → Bool) (s : KB)
    (hs : SoundState grid μ s) :
    ∃ n : ℕ, (inferStep ((fun t => (inferStep t).1)^[n] s)).2 = false := by
  suffices h : ∀ (m : ℕ) (s : KB), SoundState grid μ s → kbMeasure grid s ≤ m →
      ∃ n : ℕ, (inferStep ((fun t => (inferStep t).1)^[n] s)).2 = false by
    exact h (kbMeasure grid s) s hs le_rfl
  intro m
  induction m with
  | zero =>
      intro s hs hm
      by_cases hch : (inferStep s).2 = false
      · exact ⟨0, hch⟩
      · have hch' : (inferStep s).2 = true := by
          cases h : (inferStep s).2
          · exact absurd h hch
          · rfl
        have := measure_decreases hs hch'
        omega
  | succ k ih =>
      intro s hs hm
      by_cases hch : (inferStep s).2 = false
      · exact ⟨0, hch⟩
      · have hch' : (inferStep s).2 = true := by
          cases h : (inferStep s).2
          · exact absurd h hch
          · rfl
        have hlt := measure_decreases hs hch'
        obtain ⟨n, hn⟩ := ih (inferStep s).1 (sound_inferStep hs) (by omega)
        refine ⟨n + 1, ?_⟩
        rw [Function.iterate_succ_apply]
        exact hn

/-- Witness for C2 at the concrete scenario-C state (sound for the layout
whose only mine is `(0,0)`). -/
theorem infer_terminates_witness :
    SoundState {((0:ℤ),(0:ℤ)), ((0:ℤ),(1:ℤ)), ((0:ℤ),(2:ℤ))}
      (fun c => decide (c = ((0:ℤ),(0:ℤ)))) kbScenC ∧
    ∃ n : ℕ, (inferStep ((fun t => (inferStep t).1)^[n] kbScenC)).2 = false := by
  have hs : SoundState {((0:ℤ),(0:ℤ)), ((0:ℤ),(1:ℤ)), ((0:ℤ),(2:ℤ))}
      (fun c => decide (c = ((0:ℤ),(0:ℤ)))) kbScenC :=
    ⟨by decide, by unfold Sentence.exactFor; decide, by decide, by decide, by decide⟩
  exact ⟨hs, infer_terminates _ _ kbScenC hs⟩

/-!
## Reachability support: every state of an agent on a truthfully-reported
board is sound
-/

theorem sound_initial (grid : Finset Cell) (μ : Cell → Bool) :
    SoundState grid μ ⟨∅, ∅, ∅, []⟩ := by
  constructor <;> simp

theorem sound_kbMarkSafe {grid : Finset Cell} {μ : Cell → Bool} {s : KB} {x : Cell}
    (hs : SoundState grid μ s) (hx : μ x = false) :
    SoundState grid μ (kbMarkSafe s x) := by
  unfold kbMarkSafe
  split
  · exact hs
  · constructor
    · intro t ht
      obtain ⟨u, hu, rfl⟩ := List.mem_map.mp ht
      unfold Sentence.mark_safe
      split
      · exact Finset.Subset.trans (Finset.erase_subset x u.cells) (hs.mem_grid u hu)
      · exact hs.mem_grid u hu
    · intro t ht
      obtain ⟨u, hu, rfl⟩ := List.mem_map.mp ht
      exact exactFor_mark_safe hx (hs.exact_counts u hu)
    · intro t ht
      obtain ⟨u, hu, rfl⟩ := List.mem_map.mp ht
      intro c hc
      unfold Sentence.mark_safe at hc
      split at hc
      · obtain ⟨hne, hcu⟩ := Finset.mem_erase.mp hc
        obtain ⟨h1, h2⟩ := hs.cells_fresh u hu c hcu
        exact ⟨fun hin => (Finset.mem_insert.mp hin).elim hne h1, h2⟩
      · obtain ⟨h1, h2⟩ := hs.cells_fresh u hu c hc
        rename_i hxu
        refine ⟨fun hin => ?_, h2⟩
        rcases Finset.mem_insert.mp hin with rfl | hin
        · exact hxu hc
        · exact h1 hin
    · intro c hc
      rcases Finset.mem_insert.mp hc with rfl | hc
      · exact hx
      · exact hs.safes_correct c hc
    · exact hs.mines_correct

theorem count_split (μ : Cell → Bool) (M S : Finset Cell) :
    ∀ N : List Cell, (∀ p ∈ N, p ∈ M → μ p = true) → (∀ p ∈ N, p ∈ S → μ p = false) →
      (N.filter (fun p => μ p)).length =
        (N.filter (fun p => decide (p ∈ M))).length +
          ((N.filter (fun p => decide (p ∉ M ∧ p ∉ S))).filter (fun p => μ p)).length := by
  intro N
  induction N with
  | nil => simp
  | cons p tl ih =>
      intro hm hsf
      have ihr := ih (fun q hq => hm q (List.mem_cons_of_mem p hq))
        (fun q hq => hsf q (List.mem_cons_of_mem p hq))
      have hmp := hm p (List.mem_cons_self p tl)
      have hsp := hsf p (List.mem_cons_self p tl)
      by_cases hpM : p ∈ M <;> by_cases hpS : p ∈ S <;> cases hμ : μ p <;>
        simp [List.filter_cons, hpM, hpS, hμ, hmp, hsp, ihr] at * <;> omega

theorem toFinset_filter_cells (l : List Cell) (p : Cell → Bool) :
    (l.filter p).toFinset = l.toFinset.filter (fun c => p c) := by
  ext c
  simp [List.mem_toFinset, List.mem_filter]

theorem sound_addKnowledgeCore {grid : Finset Cell} {μ : Cell → Bool} {s : KB}
    (rows cols : ℕ) {cell : Cell} {count : ℤ} (hs : SoundState grid μ s)
    (hcell : μ cell = false)
    (hgrid : ∀ p ∈ inBoundsNeighbors rows cols cell, p ∈ grid)
    (hcount : count =
      (((inBoundsNeighbors rows cols cell).filter (fun p => μ p)).length : ℤ)) :
    SoundState grid μ (addKnowledgeCore rows cols s cell count) := by
  have hs1 : SoundState grid μ (kbMarkSafe s cell) := sound_kbMarkSafe hs hcell
  have hs1' : SoundState grid μ
      { kbMarkSafe s cell with
          movesMade := insert cell (kbMarkSafe s cell).movesMade } :=
    ⟨hs1.mem_grid, hs1.exact_counts, hs1.cells_fresh, hs1.safes_correct,
      hs1.mines_correct⟩
  unfold addKnowledgeCore
  dsimp only
  split
  · exact hs1'
  · rename_i hcells
    set N := inBoundsNeighbors rows cols cell with hN
    set s1 := kbMarkSafe s cell with hs1eq
    have hsplit := count_split μ s1.mines s1.safes N
      (fun p _ hp => hs1.mines_correct p hp)
      (fun p _ hp => hs1.safes_correct p hp)
    have hnodup : (N.filter (fun p => decide (p ∉ s1.mines ∧ p ∉ s1.safes))).Nodup :=
      (inBoundsNeighbors_nodup rows cols cell).filter _
    constructor
    · intro t ht
      rcases List.mem_append.mp ht with h | h
      · exact hs1'.mem_grid t h
      · rw [List.mem_singleton] at h
        subst h
        intro c hc
        dsimp only at hc
        rw [List.mem_toFinset, List.mem_filter] at hc
        exact hgrid c hc.1
    · intro t ht
      rcases List.mem_append.mp ht with h | h
      · exact hs1'.exact_counts t h
      · rw [List.mem_singleton] at h
        subst h
        unfold Sentence.exactFor
        dsimp only
        rw [← toFinset_filter_cells]
        rw [List.toFinset_card_of_nodup (hnodup.filter _)]
        have hetafix : List.filter μ
            (N.filter (fun p => decide (p ∉ s1.mines ∧ p ∉ s1.safes))) =
            List.filter (fun p => μ p)
              (N.filter (fun p => decide (p ∉ s1.mines ∧ p ∉ s1.safes))) := rfl
        rw [hetafix]
        omega
    · intro t ht
      rcases List.mem_append.mp ht with h | h
      · exact hs1'.cells_fresh t h
      · rw [List.mem_singleton] at h
        subst h
        intro c hc
        dsimp only at hc
        rw [List.mem_toFinset, List.mem_filter, decide_eq_true_iff] at hc
        exact ⟨hc.2.2, hc.2.1⟩
    · exact hs1'.safes_correct
    · exact hs1'.mines_correct

theorem sound_inferFuel {grid : Finset Cell} {μ : Cell → Bool} :
    ∀ (n : ℕ) {s : KB}, SoundState grid μ s → SoundState grid μ (inferFuel n s) := by
  intro n
  induction n with
  | zero => exact fun hs => hs
  | succ k ih =>
      intro s hs
      unfold inferFuel
      dsimp only
      split
      · exact ih (sound_inferStep hs)
      · exact sound_inferStep hs

theorem sound_addKnowledge {grid : Finset Cell} {μ : Cell → Bool} {s : KB}
    (rows cols fuel : ℕ) {cell : Cell} {count : ℤ} (hs : SoundState grid μ s)
    (hcell : μ cell = false)
    (hgrid : ∀ p ∈ inBoundsNeighbors rows cols cell, p ∈ grid)
    (hcount : count =
      (((inBoundsNeighbors rows cols cell).filter (fun p => μ p)).length : ℤ)) :
    SoundState grid μ (addKnowledge rows cols fuel s cell count) :=
  sound_inferFuel fuel (sound_addKnowledgeCore rows cols hs hcell hgrid hcount)

theorem sound_syncObs {grid : Finset Cell} {μ : Cell → Bool} (rows cols fuel : ℕ)
    (obs : Cell → ℤ)
    (hobs : ∀ c : Cell, 0 ≤ obs c → μ c = false ∧ obs c =
      (((inBoundsNeighbors rows cols c).filter (fun p => μ p)).length : ℤ))
    (hgrid : ∀ c : Cell, ∀ p ∈ inBoundsNeighbors rows cols c, p ∈ grid) :
    ∀ {s : KB}, SoundState grid μ s → SoundState grid μ (syncObs rows cols fuel s obs) := by
  unfold syncObs
  generalize gridCells rows cols = cs
  induction cs with
  | nil => exact fun hs => hs
  | cons c tl ih =>
      intro s hs
      rw [List.foldl_cons]
      split
      · rename_i hcond
        exact ih (sound_addKnowledge rows cols fuel hs (hobs c hcond.1).1
          (hgrid c) (hobs c hcond.1).2)
      · exact ih hs
